import Mathlib

/-!
A shallow embedding of the insight-stream (LokiLite) log-aggregation core,
translated from the Go sources, together with proofs settling the frozen
claims about its specification.

Conventions of the embedding:
* Go `map[string]string` values are modelled as association lists
  (`List (String × String)`); Go map indexing `l[k]` (which yields the zero
  value `""` on a missing key) is `lookupD`.
* `time.Time` values are modelled as integers on one abstract timeline;
  `t.Before u` is `t < u` and `t.After u` is `t > u`.
* The SHA-256 based fingerprint of `labels.go` is `H (hashInput l)` for an
  abstract hash `H : String → String`; every property proved below holds for
  every `H`, and counterexamples are exhibited with collision-free `H`.
* Compiled Go regular expressions are modelled as total predicates
  `String → Bool` carried inside the matcher / filter structures.
-/

namespace InsightStream

/-- Models Go `map[string]string` (label sets, as in `models/labels.go`). -/
abbrev Labels := List (String × String)

/-- Go map indexing `l[k]`: the zero value `""` when the key is absent. -/
def lookupD (l : Labels) (k : String) : String :=
  (l.lookup k).getD ""

/-- Lexicographic order on character lists (how `sort.Strings` compares;
byte order and code-point order agree on the ASCII label keys at play). -/
def charListLe : List Char → List Char → Bool
  | [], _ => true
  | _ :: _, [] => false
  | a :: as, b :: bs => if a = b then charListLe as bs else decide (a < b)

/-- Lexicographic string order used by `sort.Strings`. -/
def strLe (a b : String) : Bool := charListLe a.data b.data

/-- Strict form of `strLe`. -/
def strLt (a b : String) : Bool := strLe a b && !(a == b)

/-- Insert a key into an ascending key list. -/
def insertKey (k : String) : List String → List String
  | [] => [k]
  | x :: xs => if strLe k x then k :: x :: xs else x :: insertKey k xs

/-- Sort a key list ascending lexicographically; on the duplicate-free key
lists a Go map yields, every sorting algorithm (including `sort.Strings`'s
pdqsort) returns this unique ascending permutation. -/
def sortKeysList : List String → List String
  | [] => []
  | k :: ks => insertKey k (sortKeysList ks)

/-- The sorted key list built by `Labels.Hash` and `Labels.ToPath`
(`keys := ...; sort.Strings(keys)`). -/
def sortKeys (l : Labels) : List String :=
  sortKeysList (l.map Prod.fst)

/-- The string serialized by `Labels.Hash` before hashing: for each sorted key,
`k + "=" + l[k] + ","` (`labels.go` lines 21-27). -/
def serializeKeyList : List String → Labels → String
  | [], _ => ""
  | k :: ks, l => k ++ "=" ++ lookupD l k ++ "," ++ serializeKeyList ks l

/-- The full pre-hash serialization of a label set (`labels.go` `Hash`). -/
def hashInput (l : Labels) : String :=
  serializeKeyList (sortKeys l) l

/-- `Labels.Hash` with the SHA-256-truncate-hex step abstracted as `H`:
the Go code computes `hex(sha256(hashInput l)[:8])`, i.e. `H (hashInput l)`
for a fixed function `H` of the serialized string alone. -/
def fingerprintWith (H : String → String) (l : Labels) : String :=
  H (hashInput l)

/-- `Labels.ToPath`: sorted `k=v` tokens joined with `_`. -/
def toPath (l : Labels) : String :=
  String.intercalate "_" ((sortKeys l).map (fun k => k ++ "=" ++ lookupD l k))

/-- `Labels.Match` (`labels.go` lines 50-57): for every `k=v` of the query,
`l[k] != v` fails the match; note the Go zero-value lookup. -/
def labelsMatch (l : Labels) (query : Labels) : Bool :=
  query.all (fun kv => lookupD l kv.1 == kv.2)

/-- `models.LogEntry`. -/
structure LogEntry where
  id : String
  timestamp : Int
  line : String
  labels : Labels
deriving DecidableEq, Repr

/-- `models.ChunkMeta`. -/
structure ChunkMeta where
  id : String
  labels : Labels
  startTime : Int
  endTime : Int
  entryCount : Nat
deriving DecidableEq, Repr

/-- The timestamp of the last entry of `e :: es`. -/
def lastTimestamp (e : LogEntry) : List LogEntry → Int
  | [] => e.timestamp
  | e2 :: es => lastTimestamp e2 es

/-- The `startTime`/`endTime` pair computed by `Writer.WriteChunk`
(`writer.go` lines 59-71): `startTime` is set at `i == 0`, `endTime` is
overwritten by every entry, so the pair is (first, last) in caller order;
on an empty list both stay the Go zero time (modelled `0`). -/
def writeChunkTimes : List LogEntry → Int × Int
  | [] => (0, 0)
  | e :: es => (e.timestamp, lastTimestamp e es)

/-- Wire-format entry (`models.Entry`): raw timestamp string plus line. -/
structure Entry where
  ts : String
  line : String
deriving DecidableEq, Repr

/-- Wire-format stream (`models.Stream`). An `IngestRequest` is a list of
streams. -/
structure Stream where
  labels : Labels
  entries : List Entry
deriving DecidableEq, Repr

/-- First character of a valid label key (`validateLabelKey`): letter or
underscore. -/
def isKeyStartChar (c : Char) : Bool :=
  ('a' ≤ c && c ≤ 'z') || ('A' ≤ c && c ≤ 'Z') || c == '_'

/-- Subsequent characters of a valid label key: alphanumeric or underscore. -/
def isKeyChar (c : Char) : Bool :=
  isKeyStartChar c || ('0' ≤ c && c ≤ '9')

/-- `validateLabelKey` (`validation.go`): length 1-128, starts with letter or
underscore, rest alphanumeric or underscore. -/
def validLabelKey (k : String) : Bool :=
  match k.data with
  | [] => false
  | c :: rest => k.length ≤ 128 && isKeyStartChar c && rest.all isKeyChar

/-- `validateLabelValue`: length 1-2048 and no newline. Commas and equal
signs are allowed, which matters for fingerprint collisions below. -/
def validLabelValue (v : String) : Bool :=
  1 ≤ v.length && v.length ≤ 2048 && !(v.data.contains '\n')

/-- `ValidateStream`: non-empty labels, non-empty entries, every key and
value valid. -/
def validateStream (s : Stream) : Bool :=
  !s.labels.isEmpty && !s.entries.isEmpty &&
    s.labels.all (fun kv => validLabelKey kv.1 && validLabelValue kv.2)

/-- `ingest.logBuffer`: per-label-set accumulator. -/
structure LogBuffer where
  labels : Labels
  entries : List LogEntry
  size : Nat
deriving DecidableEq, Repr

/-- A chunk file on disk together with the label set of its directory and
sidecar (what `WriteChunk` persists). -/
structure ChunkRecord where
  id : String
  labels : Labels
  entries : List LogEntry
deriving DecidableEq, Repr

/-- Combined observable state of the ingest pipeline, the chunk store and the
live-tail hub. `stopped` records that `Stop` has returned (the flush worker
has exited); the Go `Ingest` never consults any such flag, and neither does
the model's `ingestOp`. -/
structure PipeState where
  buffers : List (String × LogBuffer)
  chunks : List ChunkRecord
  index : List ChunkMeta
  nextEntryId : Nat
  chunkSeq : Nat
  hubQueue : List LogEntry
  hubDropped : Nat
  ingestedLines : Nat
  ingestedBytes : Nat
  stopped : Bool
deriving DecidableEq, Repr

/-- The freshly started system: empty buffers, no chunks, empty hub queue. -/
def initState : PipeState :=
  ⟨[], [], [], 0, 0, [], 0, 0, 0, false⟩

/-- Capacity of the hub's broadcast channel:
`broadcast: make(chan *models.LogEntry, 1000)` in `NewStreamHub`. -/
def hubCapacity : Nat := 1000

/-- `StreamHub.Broadcast`: non-blocking send on the bounded channel; when the
channel is full the entry is dropped and a warning is logged (modelled by the
`hubDropped` counter). -/
def broadcastHub (e : LogEntry) (st : PipeState) : PipeState :=
  if st.hubQueue.length < hubCapacity then
    { st with hubQueue := st.hubQueue ++ [e] }
  else
    { st with hubDropped := st.hubDropped + 1 }

/-- Go map write `buffers[h] = b`: replace the binding if present, else add. -/
def setBuffer (bs : List (String × LogBuffer)) (h : String) (b : LogBuffer) :
    List (String × LogBuffer) :=
  if bs.any (fun p => p.1 == h) then
    bs.map (fun p => if p.1 == h then (h, b) else p)
  else bs ++ [(h, b)]

/-- `generateLogID` is a wall-clock-derived string; the model draws ids from
the per-state counter instead (their exact shape matters to no claim). -/
def mkEntryId (n : Nat) : String := toString n

/-- The per-entry body of `Ingest`'s inner loop: parse the timestamp
(falling back to `now` on failure), append the `LogEntry` to the buffer,
broadcast it to the hub and bump the metrics counters. -/
def processEntry (parseTs : String → Option Int) (now : Int) (labels : Labels)
    (acc : PipeState × LogBuffer × Nat) (e : Entry) : PipeState × LogBuffer × Nat :=
  let st := acc.1
  let buf := acc.2.1
  let n := acc.2.2
  let ts := (parseTs e.ts).getD now
  let le : LogEntry := ⟨mkEntryId st.nextEntryId, ts, e.line, labels⟩
  let buf2 : LogBuffer :=
    { buf with entries := buf.entries ++ [le], size := buf.size + e.line.length }
  let st2 := broadcastHub le { st with nextEntryId := st.nextEntryId + 1 }
  let st3 := { st2 with ingestedLines := st2.ingestedLines + 1,
                        ingestedBytes := st2.ingestedBytes + e.line.length }
  (st3, buf2, n + 1)

/-- Chunk id `"chunk_<unix>_<seq>"`; the model keeps only the monotonically
increasing sequence component, which is what makes ids unique. -/
def chunkIdOf (seq : Nat) : String := "chunk_" ++ toString seq

/-- `flushBuffer` (ingest) combined with `Writer.WriteChunk`: `wrOk` is the
disk-success oracle. On success the chunk file and sidecar are written and
`Index.AddChunk` records the writer's (first, last) times; on failure the
error is logged and nothing is advertised to the index. -/
def flushBufferOp (wrOk : Labels → List LogEntry → Bool) (st : PipeState)
    (buf : LogBuffer) : PipeState :=
  if buf.entries.isEmpty then st
  else if wrOk buf.labels buf.entries then
    let cid := chunkIdOf (st.chunkSeq + 1)
    let times := writeChunkTimes buf.entries
    { st with chunkSeq := st.chunkSeq + 1,
              chunks := st.chunks ++ [⟨cid, buf.labels, buf.entries⟩],
              index := st.index ++
                [⟨cid, buf.labels, times.1, times.2, buf.entries.length⟩] }
  else st

/-- One stream of `Ingest`: validate (logging and skipping on failure), find
or create the buffer keyed by the label fingerprint, run the entry loop, and
flush synchronously when the buffer reached `bufSize`, replacing it by a
fresh empty buffer whether or not the write succeeded. -/
def ingestStream (wrOk : Labels → List LogEntry → Bool)
    (parseTs : String → Option Int) (now : Int) (H : String → String)
    (bufSize : Nat) (acc : PipeState × Nat) (s : Stream) : PipeState × Nat :=
  let st := acc.1
  if !validateStream s then acc
  else
    let h := fingerprintWith H s.labels
    let buf0 := match st.buffers.lookup h with
      | some b => b
      | none => ⟨s.labels, [], 0⟩
    let r := s.entries.foldl (processEntry parseTs now s.labels) (st, buf0, 0)
    let st1 := r.1
    let buf1 := r.2.1
    if bufSize ≤ buf1.entries.length then
      let st2 := flushBufferOp wrOk st1 buf1
      ({ st2 with buffers := setBuffer st2.buffers h ⟨s.labels, [], 0⟩ },
        acc.2 + r.2.2)
    else
      ({ st1 with buffers := setBuffer st1.buffers h buf1 }, acc.2 + r.2.2)

/-- `Ingest`: process the request's streams in order and return the accepted
entry count; the Go function returns a nil error unconditionally, modelled by
the always-`none` third component. -/
def ingestOp (wrOk : Labels → List LogEntry → Bool)
    (parseTs : String → Option Int) (now : Int) (H : String → String)
    (bufSize : Nat) (st : PipeState) (req : List Stream) :
    PipeState × Nat × Option String :=
  let r := req.foldl (ingestStream wrOk parseTs now H bufSize) (st, 0)
  (r.1, r.2, none)

/-- The loop body of `flushAll`: each non-empty buffer is flushed and then
reset (`buf.entries = buf.entries[:0]; buf.size = 0`) regardless of whether
the flush succeeded. -/
def flushAllList (wrOk : Labels → List LogEntry → Bool) (st : PipeState) :
    List (String × LogBuffer) → PipeState × List (String × LogBuffer)
  | [] => (st, [])
  | (h, b) :: rest =>
    if b.entries.isEmpty then
      let r := flushAllList wrOk st rest
      (r.1, (h, b) :: r.2)
    else
      let st2 := flushBufferOp wrOk st b
      let r := flushAllList wrOk st2 rest
      (r.1, (h, ⟨b.labels, [], 0⟩) :: r.2)

/-- `flushAll`: flush every non-empty buffer under the buffer lock. -/
def flushAllOp (wrOk : Labels → List LogEntry → Bool) (st : PipeState) :
    PipeState :=
  let r := flushAllList wrOk { st with buffers := [] } st.buffers
  { r.1 with buffers := r.2 }

/-- `Stop`: signal the flush worker, wait for it to exit, then one final
`flushAll`. The `stopped` flag records that the worker has exited. -/
def stopOp (wrOk : Labels → List LogEntry → Bool) (st : PipeState) : PipeState :=
  { flushAllOp wrOk st with stopped := true }

/-- The accepted-entry count `Ingest` reports: the total entry count of the
streams that passed validation. -/
def acceptedCount (req : List Stream) : Nat :=
  ((req.filter (fun s => validateStream s)).map (fun s => s.entries.length)).sum

/-- On-disk files plus the in-memory index, as seen by retention and
queries. -/
structure StoreState where
  files : List (String × Int)
  index : List ChunkMeta
deriving DecidableEq, Repr

/-- `CleanupOldChunks` (`retention.go`): walk the base path and delete every
regular file whose mtime precedes the cutoff; `rmOk` is the `os.Remove`
success oracle (a failed removal is logged and the file kept). The function
never touches the label index: `Index.RemoveChunk` exists in the repository
but has no caller, so index entries survive the sweep. -/
def cleanupOldChunks (rmOk : String → Bool) (cutoff : Int) (st : StoreState) :
    StoreState :=
  { st with files := st.files.filter (fun f => !(f.2 < cutoff && rmOk f.1)) }

/-- `Index.RemoveChunk`: drop the chunk's metadata (and its id from the
per-fingerprint list, elided here since the meta map determines it). -/
def removeChunk (metas : List ChunkMeta) (cid : String) : List ChunkMeta :=
  metas.filter (fun m => !(m.id == cid))

/-- `Index.FindChunks`: keep every chunk whose `[startTime, endTime]` is not
disjoint from the query window (`meta.EndTime < start || meta.StartTime >
end` skips) and whose labels `Match` the query map. -/
def findChunks (metas : List ChunkMeta) (query : Labels) (startT endT : Int) :
    List String :=
  (metas.filter (fun m =>
    !(m.endTime < startT || m.startTime > endT) && labelsMatch m.labels query)).map
    (fun m => m.id)

/-- The four label-matcher operators of the query parser. -/
inductive MatchOp
  | meq
  | mneq
  | mre
  | mnre
deriving DecidableEq, Repr

/-- `query.LabelMatcher`; the compiled regex of `=~`/`!~` matchers is
abstracted as the total predicate `regex` (the parser rejects queries whose
regex fails to compile, so matchers with a regex operator always carry one). -/
structure LabelMatcher where
  name : String
  value : String
  op : MatchOp
  regex : String → Bool

/-- `LabelMatcher.Match` (`parser.go`): `value, exists := labels[m.Name]`
followed by the per-operator check. -/
def LabelMatcher.eval (m : LabelMatcher) (l : Labels) : Bool :=
  match l.lookup m.name with
  | some v =>
    match m.op with
    | .meq => v == m.value
    | .mneq => !(v == m.value)
    | .mre => m.regex v
    | .mnre => !(m.regex v)
  | none =>
    match m.op with
    | .meq => false
    | .mneq => true
    | .mre => false
    | .mnre => true

/-- The four line-filter operators. -/
inductive LineOp
  | lcontains
  | lncontains
  | lre
  | lnre
deriving DecidableEq, Repr

/-- `query.LineFilter`, regex abstracted as for `LabelMatcher`. -/
structure LineFilter where
  pattern : String
  op : LineOp
  regex : String → Bool

/-- Substring test on character lists (helper for `strings.Contains`). -/
def containsAux (pat : List Char) : List Char → Bool
  | [] => pat.isEmpty
  | c :: tl => pat.isPrefixOf (c :: tl) || containsAux pat tl

/-- `strings.Contains line pattern`. -/
def strContains (line pat : String) : Bool :=
  containsAux pat.data line.data

/-- `LineFilter.Match` (`parser.go`). -/
def LineFilter.eval (f : LineFilter) (line : String) : Bool :=
  match f.op with
  | .lcontains => strContains line f.pattern
  | .lncontains => !(strContains line f.pattern)
  | .lre => f.regex line
  | .lnre => !(f.regex line)

/-- `query.ParsedQuery`; for the claims below only whether an aggregation is
present matters, not its contents. -/
structure ParsedQuery where
  matchers : List LabelMatcher
  filters : List LineFilter
  hasAgg : Bool

/-- `ParsedQuery.MatchLabels`: every matcher must accept the labels. -/
def matchLabelsQ (q : ParsedQuery) (l : Labels) : Bool :=
  q.matchers.all (fun m => m.eval l)

/-- `ParsedQuery.MatchLine`: every line filter must accept the line. -/
def matchLineQ (q : ParsedQuery) (s : String) : Bool :=
  q.filters.all (fun f => f.eval s)

/-- Go map write `m[k] = v` on a label assoc list. -/
def setLabel (l : Labels) (k v : String) : Labels :=
  if l.any (fun p => p.1 == k) then
    l.map (fun p => if p.1 == k then (k, v) else p)
  else l ++ [(k, v)]

/-- `Execute` step 2: the exact-equality submap of the selector
(`simpleLabels[m.Name] = m.Value` for each `=` matcher). -/
def simpleLabels (q : ParsedQuery) : Labels :=
  q.matchers.foldl
    (fun acc m => if m.op == MatchOp.meq then setLabel acc m.name m.value else acc) []

/-- `Reader.ReadChunkFiltered`: read the chunk (`none` models an I/O or
missing-file error), keep entries with `start ≤ ts ≤ end` (the source skips
on `Before(start)` or `After(end)`), and report the scanned line count. -/
def readChunkFiltered (store : List (String × List LogEntry)) (cid : String)
    (startT endT : Int) : Option (List LogEntry × Nat) :=
  match store.lookup cid with
  | none => none
  | some es =>
    some (es.filter (fun en => !(en.timestamp < startT) && !(en.timestamp > endT)),
      es.length)

/-- One iteration of `Execute`'s chunk-reading loop (lines 94-121): fetch the
chunk's meta (skipping ids without one), read the chunk (skipping chunks
whose read fails) and keep the entries accepted by every label matcher and
every line filter. -/
def collectStep (metas : List ChunkMeta) (store : List (String × List LogEntry))
    (q : ParsedQuery) (startT endT : Int) (acc : List LogEntry) (cid : String) :
    List LogEntry :=
  match metas.find? (fun m => m.id == cid) with
  | none => acc
  | some _ =>
    match readChunkFiltered store cid startT endT with
    | none => acc
    | some r =>
      acc ++ r.1.filter (fun en => matchLabelsQ q en.labels && matchLineQ q en.line)

/-- The chunk-reading loop of `Execute`: fold `collectStep` over the ids the
index returned. -/
def collectLogs (metas : List ChunkMeta) (store : List (String × List LogEntry))
    (q : ParsedQuery) (startT endT : Int) : List LogEntry :=
  (findChunks metas (simpleLabels q) startT endT).foldl
    (collectStep metas store q startT endT) []

instance : DecidableRel (fun a b : LogEntry => b.timestamp ≤ a.timestamp) :=
  fun a b => Int.decLe b.timestamp a.timestamp

/-- The sort of `Execute` (lines 125-128): `sort.Slice` with comparator
`Timestamp.After`, i.e. timestamps non-increasing; nothing else is compared.
`sort.Slice` applies insertion sort to slices shorter than 12 elements, which
this model mirrors exactly (and for longer slices it still produces a
permutation ordered by the same comparator, the only facts used below). -/
def sortLogs (l : List LogEntry) : List LogEntry :=
  l.insertionSort (fun a b => b.timestamp ≤ a.timestamp)

/-- `Execute` (lines 125-139): sort the surviving entries by timestamp
descending, then truncate to `limit` when `limit > 0 && len > limit` and no
aggregation is present. Returns the entry list underlying the `logs` array
(the response conversion preserves id, timestamp, line and labels; `stats`
and the aggregation value are elided). -/
def executeQ (metas : List ChunkMeta) (store : List (String × List LogEntry))
    (q : ParsedQuery) (startT endT : Int) (limit : Int) : List LogEntry :=
  if 0 < limit ∧
      limit.toNat < (sortLogs (collectLogs metas store q startT endT)).length ∧
      q.hasAgg = false then
    (sortLogs (collectLogs metas store q startT endT)).take limit.toNat
  else sortLogs (collectLogs metas store q startT endT)

/-! ## Helper lemmas -/

lemma lastTimestamp_mem (e : LogEntry) (es : List LogEntry) :
    ∃ x ∈ e :: es, x.timestamp = lastTimestamp e es := by
  induction es generalizing e with
  | nil => exact ⟨e, by simp, rfl⟩
  | cons e2 tl ih =>
    obtain ⟨x, hx, hts⟩ := ih e2
    exact ⟨x, List.mem_cons_of_mem e hx, hts⟩

lemma le_lastTimestamp_of_pairwise (e : LogEntry) (es : List LogEntry)
    (h : (e :: es).Pairwise (fun a b => a.timestamp ≤ b.timestamp)) :
    ∀ x ∈ e :: es, x.timestamp ≤ lastTimestamp e es := by
  induction es generalizing e with
  | nil =>
    intro x hx
    rcases List.mem_singleton.mp hx with rfl
    exact le_rfl
  | cons e2 tl ih =>
    intro x hx
    show x.timestamp ≤ lastTimestamp e2 tl
    rcases List.mem_cons.mp hx with rfl | hx2
    · have h12 : x.timestamp ≤ e2.timestamp :=
        (List.pairwise_cons.mp h).1 e2 (by simp)
      have h2 := ih e2 (List.pairwise_cons.mp h).2 e2 (by simp)
      exact le_trans h12 h2
    · exact ih e2 (List.pairwise_cons.mp h).2 x hx2

/-! ## Claim C4 — `write_chunk` start/end times -/

/-- C4 counterexample: `WriteChunk` on entries whose timestamps are 10 then 5
returns `start_time = 10` (the first entry, not the minimum 5) and
`end_time = 5` (the last entry, not the maximum 10), so `start_time ≤
end_time` fails; the claim that the returned times are the min and max of the
entry timestamps regardless of caller order is false. -/
theorem c4_counterexample :
    writeChunkTimes [⟨"1", 10, "x", []⟩, ⟨"2", 5, "y", []⟩] = (10, 5) ∧
    min (10 : Int) 5 = 5 ∧ max (10 : Int) 5 = 10 ∧ ¬((10 : Int) ≤ 5) := by
  decide

/-- C4 (corrected): `WriteChunk` returns the timestamp of the *first* entry
as `start_time` and of the *last* entry as `end_time`, in caller-supplied
order; when the supplied entries have nondecreasing timestamps these coincide
with the minimum and maximum and `start_time ≤ end_time` holds. -/
theorem c4_first_last_times (e : LogEntry) (es : List LogEntry)
    (hmono : (e :: es).Pairwise (fun a b => a.timestamp ≤ b.timestamp)) :
    writeChunkTimes (e :: es) = (e.timestamp, lastTimestamp e es) ∧
    (∀ x ∈ e :: es, e.timestamp ≤ x.timestamp ∧
      x.timestamp ≤ lastTimestamp e es) ∧
    e.timestamp ≤ lastTimestamp e es := by
  refine ⟨rfl, ?_, ?_⟩
  · intro x hx
    refine ⟨?_, le_lastTimestamp_of_pairwise e es hmono x hx⟩
    rcases List.mem_cons.mp hx with rfl | hx2
    · exact le_rfl
    · exact (List.pairwise_cons.mp hmono).1 x hx2
  · exact le_lastTimestamp_of_pairwise e es hmono e (by simp)

/-- Witness for `c4_first_last_times` at a concrete sorted entry list. -/
theorem c4_first_last_times_witness :
    (([⟨"1", 3, "x", []⟩, ⟨"2", 7, "y", []⟩] : List LogEntry).Pairwise
      (fun a b => a.timestamp ≤ b.timestamp)) ∧
    writeChunkTimes [⟨"1", 3, "x", []⟩, ⟨"2", 7, "y", []⟩] = (3, 7) ∧
    (3 : Int) ≤ 7 := by
  refine ⟨by decide, ?_, ?_⟩
  · exact (c4_first_last_times ⟨"1", 3, "x", []⟩ [⟨"2", 7, "y", []⟩] (by decide)).1
  · exact (c4_first_last_times ⟨"1", 3, "x", []⟩ [⟨"2", 7, "y", []⟩] (by decide)).2.2

/-! ## Claim C5 — retention vs the index -/

/-- C5 counterexample: with one chunk whose file's mtime (0) precedes the
cutoff (10), the retention sweep deletes the file, yet `FindChunks` on the
surviving index still returns that chunk's id — the sweep is not atomic with
queries; it never removes the index entry at all (`Index.RemoveChunk` has no
caller), so a query *can* select a chunk whose file retention deleted. -/
theorem c5_counterexample :
    (cleanupOldChunks (fun _ => true) 10
      ⟨[("data/b=x/chunk_1.log", 0)], [⟨"chunk_1", [("b", "x")], 0, 5, 1⟩]⟩).files
      = [] ∧
    findChunks
      (cleanupOldChunks (fun _ => true) 10
        ⟨[("data/b=x/chunk_1.log", 0)], [⟨"chunk_1", [("b", "x")], 0, 5, 1⟩]⟩).index
      [] 0 5 = ["chunk_1"] := by
  decide

/-- C5 (corrected): the retention sweep deletes exactly the removable files
older than the cutoff and leaves the label index untouched — `RemoveChunk`
is never invoked — so the chunk ids any query selects are identical before
and after a sweep, including ids whose backing file the sweep just deleted
(the executor then skips such a chunk when its read fails). -/
theorem c5_retention_skips_index (rmOk : String → Bool) (cutoff : Int)
    (st : StoreState) (q : Labels) (a b : Int) :
    (cleanupOldChunks rmOk cutoff st).index = st.index ∧
    findChunks (cleanupOldChunks rmOk cutoff st).index q a b
      = findChunks st.index q a b ∧
    (∀ f ∈ (cleanupOldChunks rmOk cutoff st).files,
      f ∈ st.files ∧ (f.2 < cutoff → rmOk f.1 = false)) ∧
    (∀ f ∈ st.files, ¬(f.2 < cutoff) →
      f ∈ (cleanupOldChunks rmOk cutoff st).files) := by
  refine ⟨rfl, rfl, ?_, ?_⟩
  · intro f hf
    have h := List.mem_filter.mp hf
    refine ⟨h.1, ?_⟩
    intro hold
    have h2 := h.2
    simp only [Bool.not_eq_true', Bool.and_eq_true, decide_eq_true_eq] at h2
    rcases Bool.and_eq_false_iff.mp h2 with h3 | h3
    · exact absurd hold (by simpa using h3)
    · simpa using h3
  · intro f hf hnew
    refine List.mem_filter.mpr ⟨hf, ?_⟩
    simp only [Bool.not_eq_true']
    exact Bool.and_eq_false_iff.mpr (Or.inl (by simpa using hnew))

/-- Witness for `c5_retention_skips_index` at a concrete store state. -/
theorem c5_retention_skips_index_witness :
    ("data/b=x/chunk_1.log", (20 : Int)) ∈
      (cleanupOldChunks (fun _ => true) 10
        ⟨[("data/b=x/chunk_1.log", 20)], [⟨"chunk_1", [("b", "x")], 0, 5, 1⟩]⟩).files ∧
    ¬((20 : Int) < 10) := by
  refine ⟨?_, by decide⟩
  exact (c5_retention_skips_index (fun _ => true) 10
    ⟨[("data/b=x/chunk_1.log", 20)], [⟨"chunk_1", [("b", "x")], 0, 5, 1⟩]⟩ [] 0 5).2.2.2
    ("data/b=x/chunk_1.log", 20) (by decide) (by decide)

/-! ## Claim C8 — `find_chunks` -/

/-- The spec's wording of the label condition of `find_chunks`, as a second
definition to compare against the code's `labelsMatch`: every key of the
query is *present* in the chunk's labels with an equal value. -/
def specSuperset (chunk query : Labels) : Bool :=
  query.all (fun kv => chunk.lookup kv.1 == some kv.2)

/-- C8 counterexample: for the query label set `{a: ""}` (an empty value,
which the query parser admits via `{a=""}`), `FindChunks` returns a chunk
that does not contain the key `a` at all — Go's zero-value map lookup makes
`l["a"] != ""` false — although the chunk's label set is not a superset of
the query, so the claimed characterization is false. -/
theorem c8_counterexample :
    findChunks [⟨"c1", [("b", "x")], 0, 10, 1⟩] [("a", "")] 0 10 = ["c1"] ∧
    specSuperset [("b", "x")] [("a", "")] = false := by
  decide

lemma lookupD_beq_iff (l : Labels) (k v : String) (hv : v ≠ "") :
    ((lookupD l k == v) = true) ↔ ((l.lookup k == some v) = true) := by
  unfold lookupD
  cases hl : l.lookup k with
  | none =>
    simp only [Option.getD_none, hl, beq_iff_eq]
    constructor
    · intro h; exact absurd h.symm hv
    · intro h; cases h
  | some w => simp [beq_iff_eq]

lemma labelsMatch_iff_specSuperset (l query : Labels)
    (hq : ∀ kv ∈ query, kv.2 ≠ "") :
    labelsMatch l query = true ↔ specSuperset l query = true := by
  simp only [labelsMatch, specSuperset, List.all_eq_true]
  constructor
  · intro h kv hkv
    exact (lookupD_beq_iff l kv.1 kv.2 (hq kv hkv)).mp (h kv hkv)
  · intro h kv hkv
    exact (lookupD_beq_iff l kv.1 kv.2 (hq kv hkv)).mpr (h kv hkv)

lemma timeCond_iff (m : ChunkMeta) (startT endT : Int)
    (hm : m.startTime ≤ m.endTime) (hw : startT ≤ endT) :
    ((!(m.endTime < startT || m.startTime > endT)) = true) ↔
      max m.startTime startT ≤ min m.endTime endT := by
  simp only [Bool.not_eq_true', Bool.or_eq_false_iff, decide_eq_false_iff_not,
    not_lt, gt_iff_lt, max_le_iff, le_min_iff]
  omega

/-- C8 (corrected): provided every query label value is non-empty (values of
*stored* labels always are, but the parser admits `{k=""}`, on which the code
deviates from the claim), and the windows are well-formed, `find_chunks`
returns exactly the ids of chunks whose `[start, end]` interval meets the
query window and whose label set is a superset of the query labels. -/
theorem c8_find_chunks_exact (metas : List ChunkMeta) (query : Labels)
    (startT endT : Int)
    (hq : query.all (fun kv => !(kv.2 == "")) = true)
    (hms : metas.all (fun m => decide (m.startTime ≤ m.endTime)) = true)
    (hw : startT ≤ endT) :
    ∀ cid, cid ∈ findChunks metas query startT endT ↔
      ∃ m ∈ metas, m.id = cid ∧
        max m.startTime startT ≤ min m.endTime endT ∧
        specSuperset m.labels query = true := by
  have hq2 : ∀ kv ∈ query, kv.2 ≠ "" := by
    intro kv hkv
    have := (List.all_eq_true.mp hq) kv hkv
    simpa using this
  have hms2 : ∀ m ∈ metas, m.startTime ≤ m.endTime := by
    intro m hm
    have := (List.all_eq_true.mp hms) m hm
    simpa using this
  intro cid
  constructor
  · intro hc
    obtain ⟨m, hmf, hid⟩ := List.mem_map.mp hc
    have hf := List.mem_filter.mp hmf
    have hb : ((!(m.endTime < startT || m.startTime > endT)) = true) ∧
        labelsMatch m.labels query = true := by
      have := hf.2
      simp only [Bool.and_eq_true] at this
      exact this
    refine ⟨m, hf.1, hid, ?_, ?_⟩
    · exact (timeCond_iff m startT endT (hms2 m hf.1) hw).mp hb.1
    · exact (labelsMatch_iff_specSuperset m.labels query hq2).mp hb.2
  · rintro ⟨m, hm, hid, hov, hsup⟩
    refine List.mem_map.mpr ⟨m, List.mem_filter.mpr ⟨hm, ?_⟩, hid⟩
    simp only [Bool.and_eq_true]
    exact ⟨(timeCond_iff m startT endT (hms2 m hm) hw).mpr hov,
      (labelsMatch_iff_specSuperset m.labels query hq2).mpr hsup⟩

/-- Witness for `c8_find_chunks_exact` at a concrete index and query. -/
theorem c8_find_chunks_exact_witness :
    ([(("s" : String), ("api" : String))].all (fun kv => !(kv.2 == ""))) = true ∧
    (([⟨"c1", [("s", "api")], 0, 10, 1⟩] : List ChunkMeta).all
      (fun m => decide (m.startTime ≤ m.endTime))) = true ∧
    (2 : Int) ≤ 8 ∧
    "c1" ∈ findChunks [⟨"c1", [("s", "api")], 0, 10, 1⟩] [("s", "api")] 2 8 := by
  refine ⟨by decide, by decide, by decide, ?_⟩
  exact ((c8_find_chunks_exact [⟨"c1", [("s", "api")], 0, 10, 1⟩] [("s", "api")]
    2 8 (by decide) (by decide) (by decide)) "c1").mpr
    ⟨⟨"c1", [("s", "api")], 0, 10, 1⟩, by decide, rfl, by decide, by decide⟩

/-! ## Claim C6 — query results satisfy the query -/

lemma mem_collectStep (metas : List ChunkMeta) (store : List (String × List LogEntry))
    (q : ParsedQuery) (startT endT : Int) (acc : List LogEntry) (cid : String)
    (en : LogEntry) (hen : en ∈ collectStep metas store q startT endT acc cid) :
    en ∈ acc ∨
      (matchLabelsQ q en.labels = true ∧ matchLineQ q en.line = true ∧
        startT ≤ en.timestamp ∧ en.timestamp ≤ endT) := by
  unfold collectStep at hen
  cases hf : metas.find? (fun m => m.id == cid) with
  | none => rw [hf] at hen; exact Or.inl hen
  | some m =>
    rw [hf] at hen
    cases hr : readChunkFiltered store cid startT endT with
    | none => rw [hr] at hen; exact Or.inl hen
    | some r =>
      rw [hr] at hen
      rcases List.mem_append.mp hen with h1 | h1
      · exact Or.inl h1
      · right
        have hfl := List.mem_filter.mp h1
        have hml : matchLabelsQ q en.labels = true ∧ matchLineQ q en.line = true := by
          have := hfl.2
          simp only [Bool.and_eq_true] at this
          exact this
        refine ⟨hml.1, hml.2, ?_, ?_⟩
        · unfold readChunkFiltered at hr
          cases hl : store.lookup cid with
          | none => rw [hl] at hr; cases hr
          | some es =>
            rw [hl] at hr
            have hr1 : r.1 = es.filter
                (fun x => !(x.timestamp < startT) && !(x.timestamp > endT)) := by
              cases hr; rfl
            have hwin := (List.mem_filter.mp (hr1 ▸ hfl.1)).2
            simp only [Bool.and_eq_true, Bool.not_eq_true', decide_eq_false_iff_not,
              not_lt, gt_iff_lt] at hwin
            exact hwin.1
        · unfold readChunkFiltered at hr
          cases hl : store.lookup cid with
          | none => rw [hl] at hr; cases hr
          | some es =>
            rw [hl] at hr
            have hr1 : r.1 = es.filter
                (fun x => !(x.timestamp < startT) && !(x.timestamp > endT)) := by
              cases hr; rfl
            have hwin := (List.mem_filter.mp (hr1 ▸ hfl.1)).2
            simp only [Bool.and_eq_true, Bool.not_eq_true', decide_eq_false_iff_not,
              not_lt, gt_iff_lt] at hwin
            exact hwin.2

lemma mem_collect_foldl (metas : List ChunkMeta) (store : List (String × List LogEntry))
    (q : ParsedQuery) (startT endT : Int) (en : LogEntry) :
    ∀ (ids : List String) (acc : List LogEntry),
      en ∈ ids.foldl (collectStep metas store q startT endT) acc →
      en ∈ acc ∨
        (matchLabelsQ q en.labels = true ∧ matchLineQ q en.line = true ∧
          startT ≤ en.timestamp ∧ en.timestamp ≤ endT) := by
  intro ids
  induction ids with
  | nil => intro acc h; exact Or.inl h
  | cons cid ids ih =>
    intro acc h
    rcases ih (collectStep metas store q startT endT acc cid) h with h1 | h1
    · exact mem_collectStep metas store q startT endT acc cid en h1
    · exact Or.inr h1

lemma mem_collectLogs (metas : List ChunkMeta) (store : List (String × List LogEntry))
    (q : ParsedQuery) (startT endT : Int) (en : LogEntry)
    (hen : en ∈ collectLogs metas store q startT endT) :
    matchLabelsQ q en.labels = true ∧ matchLineQ q en.line = true ∧
      startT ≤ en.timestamp ∧ en.timestamp ≤ endT := by
  rcases mem_collect_foldl metas store q startT endT en _ [] hen with h | h
  · cases h
  · exact h

lemma mem_executeQ (metas : List ChunkMeta) (store : List (String × List LogEntry))
    (q : ParsedQuery) (startT endT limit : Int) (en : LogEntry)
    (hen : en ∈ executeQ metas store q startT endT limit) :
    en ∈ collectLogs metas store q startT endT := by
  unfold executeQ at hen
  have hs : en ∈ sortLogs (collectLogs metas store q startT endT) := by
    split at hen
    · exact List.mem_of_mem_take hen
    · exact hen
  exact ((List.perm_insertionSort _ _).mem_iff).mp hs

/-- C6 (confirmed): every entry in the logs a query returns satisfies every
label matcher of the selector (including `!=`, `=~`, `!~`), every line filter,
and lies inside the inclusive time window `start ≤ timestamp ≤ end`. -/
theorem c6_query_results_sound (metas : List ChunkMeta)
    (store : List (String × List LogEntry)) (q : ParsedQuery)
    (startT endT limit : Int) (en : LogEntry)
    (hen : en ∈ executeQ metas store q startT endT limit) :
    (∀ m ∈ q.matchers, m.eval en.labels = true) ∧
    (∀ f ∈ q.filters, f.eval en.line = true) ∧
    startT ≤ en.timestamp ∧ en.timestamp ≤ endT := by
  have h := mem_collectLogs metas store q startT endT en
    (mem_executeQ metas store q startT endT limit en hen)
  refine ⟨?_, ?_, h.2.2.1, h.2.2.2⟩
  · exact List.all_eq_true.mp h.1
  · exact List.all_eq_true.mp h.2.1

/-- Witness for `c6_query_results_sound` on a one-chunk store with an
equality matcher and a `|=` line filter. -/
theorem c6_query_results_sound_witness :
    (⟨"1", 5, "hello", [("service", "api")]⟩ : LogEntry) ∈
      executeQ [⟨"c1", [("service", "api")], 0, 10, 1⟩]
        [("c1", [⟨"1", 5, "hello", [("service", "api")]⟩])]
        ⟨[⟨"service", "api", MatchOp.meq, fun _ => false⟩],
          [⟨"hell", LineOp.lcontains, fun _ => false⟩], false⟩ 0 10 100 ∧
    ((0 : Int) ≤ 5 ∧ (5 : Int) ≤ 10) := by
  refine ⟨by decide, ?_, ?_⟩
  · exact (c6_query_results_sound [⟨"c1", [("service", "api")], 0, 10, 1⟩]
      [("c1", [⟨"1", 5, "hello", [("service", "api")]⟩])]
      ⟨[⟨"service", "api", MatchOp.meq, fun _ => false⟩],
        [⟨"hell", LineOp.lcontains, fun _ => false⟩], false⟩ 0 10 100
      ⟨"1", 5, "hello", [("service", "api")]⟩ (by decide)).2.2.1
  · exact (c6_query_results_sound [⟨"c1", [("service", "api")], 0, 10, 1⟩]
      [("c1", [⟨"1", 5, "hello", [("service", "api")]⟩])]
      ⟨[⟨"service", "api", MatchOp.meq, fun _ => false⟩],
        [⟨"hell", LineOp.lcontains, fun _ => false⟩], false⟩ 0 10 100
      ⟨"1", 5, "hello", [("service", "api")]⟩ (by decide)).2.2.2

/-! ## Claim C7 — result ordering and limit -/

/-- Adjacent-pairs check used to state the spec's claimed ordering. -/
def adjPairsB (f : LogEntry → LogEntry → Bool) : List LogEntry → Bool
  | [] => true
  | [_] => true
  | a :: b :: tl => f a b && adjPairsB f (b :: tl)

/-- The ordering the spec claims for query results, as a second definition to
compare with the code's sort: strictly descending timestamps with ties broken
by id descending. -/
def specSortedDesc (l : List LogEntry) : Bool :=
  adjPairsB (fun a b => decide (b.timestamp < a.timestamp) ||
    (a.timestamp == b.timestamp && strLt b.id a.id)) l

/-- C7 counterexample: two entries with equal timestamps and ids `"a" < "b"`,
ingested in that order, come back from `Execute` still in id-*ascending*
order: the comparator passed to `sort.Slice` compares timestamps only (and
`sort.Slice` runs a plain insertion sort on a 2-element slice, which the
model's sort mirrors), so the claimed id-descending tie-break does not hold. -/
theorem c7_counterexample :
    executeQ [⟨"c1", [("s", "1")], 5, 5, 2⟩]
      [("c1", [⟨"a", 5, "x", [("s", "1")]⟩, ⟨"b", 5, "y", [("s", "1")]⟩])]
      ⟨[], [], false⟩ 0 10 0
      = [⟨"a", 5, "x", [("s", "1")]⟩, ⟨"b", 5, "y", [("s", "1")]⟩] ∧
    (⟨"a", 5, "x", [("s", "1")]⟩ : LogEntry).timestamp
      = (⟨"b", 5, "y", [("s", "1")]⟩ : LogEntry).timestamp ∧
    strLt "a" "b" = true ∧
    specSortedDesc
      (executeQ [⟨"c1", [("s", "1")], 5, 5, 2⟩]
        [("c1", [⟨"a", 5, "x", [("s", "1")]⟩, ⟨"b", 5, "y", [("s", "1")]⟩])]
        ⟨[], [], false⟩ 0 10 0) = false := by
  decide

instance : IsTotal LogEntry (fun a b => b.timestamp ≤ a.timestamp) :=
  ⟨fun a b => le_total b.timestamp a.timestamp⟩

instance : IsTrans LogEntry (fun a b => b.timestamp ≤ a.timestamp) :=
  ⟨fun _ _ _ h1 h2 => le_trans h2 h1⟩

/-- C7 (corrected): results without aggregation are sorted by timestamp
non-increasing — ties are left in an order the comparator does not constrain
(no id tie-break) — and are then truncated to `limit` entries when
`limit > 0`; a non-positive limit applies no truncation (the result is then a
permutation of all surviving entries). -/
theorem c7_sorted_desc (metas : List ChunkMeta)
    (store : List (String × List LogEntry)) (q : ParsedQuery)
    (startT endT limit : Int) :
    (executeQ metas store q startT endT limit).Pairwise
      (fun a b => b.timestamp ≤ a.timestamp) ∧
    (q.hasAgg = false → 0 < limit →
      (executeQ metas store q startT endT limit).length ≤ limit.toNat) ∧
    (limit ≤ 0 →
      (executeQ metas store q startT endT limit).Perm
        (collectLogs metas store q startT endT)) := by
  have hs : (sortLogs (collectLogs metas store q startT endT)).Pairwise
      (fun a b => b.timestamp ≤ a.timestamp) :=
    List.sorted_insertionSort _ _
  have hperm := List.perm_insertionSort
    (fun a b : LogEntry => b.timestamp ≤ a.timestamp)
    (collectLogs metas store q startT endT)
  refine ⟨?_, ?_, ?_⟩
  · unfold executeQ
    split
    · exact hs.sublist (List.take_sublist _ _)
    · exact hs
  · intro hagg hlim
    unfold executeQ
    split
    · simp
    · rename_i hcond
      push_neg at hcond
      by_contra hlt
      exact (hcond hlim (Nat.not_le.mp hlt)) hagg
  · intro hle
    unfold executeQ
    split
    · rename_i hcond
      exact absurd hcond.1 (not_lt.mpr hle)
    · exact hperm

/-- Witness for `c7_sorted_desc`'s limit clause at a concrete query. -/
theorem c7_sorted_desc_witness :
    ((⟨[], [], false⟩ : ParsedQuery).hasAgg = false) ∧ (0 : Int) < 1 ∧
    (executeQ [⟨"c1", [("s", "1")], 5, 5, 2⟩]
      [("c1", [⟨"a", 5, "x", [("s", "1")]⟩, ⟨"b", 6, "y", [("s", "1")]⟩])]
      ⟨[], [], false⟩ 0 10 1).length ≤ (1 : Int).toNat := by
  refine ⟨rfl, by decide, ?_⟩
  exact (c7_sorted_desc [⟨"c1", [("s", "1")], 5, 5, 2⟩]
    [("c1", [⟨"a", 5, "x", [("s", "1")]⟩, ⟨"b", 6, "y", [("s", "1")]⟩])]
    ⟨[], [], false⟩ 0 10 1).2.1 rfl (by decide)

/-! ## Pipeline bookkeeping lemmas (shared by C1, C9, C10) -/

lemma processEntry_buffers (parseTs : String → Option Int) (now : Int)
    (labels : Labels) (st : PipeState) (buf : LogBuffer) (n : Nat) (e : Entry) :
    (processEntry parseTs now labels (st, buf, n) e).1.buffers = st.buffers := by
  by_cases h : ({ st with nextEntryId := st.nextEntryId + 1 } :
      PipeState).hubQueue.length < hubCapacity <;>
    simp [processEntry, broadcastHub, h]

lemma processEntry_chunks (parseTs : String → Option Int) (now : Int)
    (labels : Labels) (st : PipeState) (buf : LogBuffer) (n : Nat) (e : Entry) :
    (processEntry parseTs now labels (st, buf, n) e).1.chunks = st.chunks := by
  by_cases h : ({ st with nextEntryId := st.nextEntryId + 1 } :
      PipeState).hubQueue.length < hubCapacity <;>
    simp [processEntry, broadcastHub, h]

lemma processEntry_count (parseTs : String → Option Int) (now : Int)
    (labels : Labels) (st : PipeState) (buf : LogBuffer) (n : Nat) (e : Entry) :
    (processEntry parseTs now labels (st, buf, n) e).2.2 = n + 1 := by
  by_cases h : ({ st with nextEntryId := st.nextEntryId + 1 } :
      PipeState).hubQueue.length < hubCapacity <;>
    simp [processEntry, broadcastHub, h]

lemma foldl_processEntry_buffers (parseTs : String → Option Int) (now : Int)
    (labels : Labels) :
    ∀ (es : List Entry) (st : PipeState) (buf : LogBuffer) (n : Nat),
      ((es.foldl (processEntry parseTs now labels) (st, buf, n)).1).buffers
        = st.buffers := by
  intro es
  induction es with
  | nil => intro st buf n; rfl
  | cons e es ih =>
    intro st buf n
    have h1 := processEntry_buffers parseTs now labels st buf n e
    calc ((es.foldl (processEntry parseTs now labels)
            (processEntry parseTs now labels (st, buf, n) e)).1).buffers
        = (processEntry parseTs now labels (st, buf, n) e).1.buffers := by
          have := ih (processEntry parseTs now labels (st, buf, n) e).1
            (processEntry parseTs now labels (st, buf, n) e).2.1
            (processEntry parseTs now labels (st, buf, n) e).2.2
          simpa using this
      _ = st.buffers := h1

lemma foldl_processEntry_count (parseTs : String → Option Int) (now : Int)
    (labels : Labels) :
    ∀ (es : List Entry) (st : PipeState) (buf : LogBuffer) (n : Nat),
      (es.foldl (processEntry parseTs now labels) (st, buf, n)).2.2
        = n + es.length := by
  intro es
  induction es with
  | nil => intro st buf n; rfl
  | cons e es ih =>
    intro st buf n
    have h1 := processEntry_count parseTs now labels st buf n e
    have h2 := ih (processEntry parseTs now labels (st, buf, n) e).1
      (processEntry parseTs now labels (st, buf, n) e).2.1
      (processEntry parseTs now labels (st, buf, n) e).2.2
    calc (es.foldl (processEntry parseTs now labels)
            (processEntry parseTs now labels (st, buf, n) e)).2.2
        = (processEntry parseTs now labels (st, buf, n) e).2.2 + es.length := by
          simpa using h2
      _ = n + (es.length + 1) := by rw [h1]; omega
      _ = n + (e :: es).length := by simp

lemma flushBufferOp_buffers (wrOk : Labels → List LogEntry → Bool)
    (st : PipeState) (buf : LogBuffer) :
    (flushBufferOp wrOk st buf).buffers = st.buffers := by
  unfold flushBufferOp
  split
  · rfl
  · split <;> rfl

lemma mem_setBuffer (bs : List (String × LogBuffer)) (h : String) (b : LogBuffer) :
    ∀ p ∈ setBuffer bs h b, p = (h, b) ∨ p ∈ bs := by
  intro p hp
  unfold setBuffer at hp
  split at hp
  · obtain ⟨x, hx, hfx⟩ := List.mem_map.mp hp
    by_cases hxh : (x.1 == h) = true
    · rw [if_pos hxh] at hfx
      exact Or.inl hfx.symm
    · rw [if_neg hxh] at hfx
      exact Or.inr (hfx ▸ hx)
  · rcases List.mem_append.mp hp with h1 | h1
    · exact Or.inr h1
    · exact Or.inl (by simpa using h1)

lemma ingestStream_accepted (wrOk : Labels → List LogEntry → Bool)
    (parseTs : String → Option Int) (now : Int) (H : String → String)
    (bufSize : Nat) (acc : PipeState × Nat) (s : Stream) :
    (ingestStream wrOk parseTs now H bufSize acc s).2 =
      acc.2 + (if validateStream s then s.entries.length else 0) := by
  unfold ingestStream
  by_cases hv : validateStream s
  · simp only [hv, Bool.not_true, Bool.false_eq_true, if_false, if_true]
    have hc := foldl_processEntry_count parseTs now s.labels s.entries acc.1
      (match acc.1.buffers.lookup (fingerprintWith H s.labels) with
        | some b => b
        | none => ⟨s.labels, [], 0⟩) 0
    split <;> simp [hc]
  · simp [hv]

lemma acceptedCount_cons (s : Stream) (req : List Stream) :
    acceptedCount (s :: req) =
      (if validateStream s then s.entries.length else 0) + acceptedCount req := by
  unfold acceptedCount
  by_cases hv : validateStream s <;> simp [List.filter_cons, hv]

lemma ingest_foldl_accepted (wrOk : Labels → List LogEntry → Bool)
    (parseTs : String → Option Int) (now : Int) (H : String → String)
    (bufSize : Nat) :
    ∀ (req : List Stream) (acc : PipeState × Nat),
      (req.foldl (ingestStream wrOk parseTs now H bufSize) acc).2 =
        acc.2 + acceptedCount req := by
  intro req
  induction req with
  | nil => intro acc; simp [acceptedCount]
  | cons s req ih =>
    intro acc
    have h1 := ingestStream_accepted wrOk parseTs now H bufSize acc s
    calc (req.foldl (ingestStream wrOk parseTs now H bufSize)
            (ingestStream wrOk parseTs now H bufSize acc s)).2
        = (ingestStream wrOk parseTs now H bufSize acc s).2
            + acceptedCount req := ih _
      _ = acc.2 + acceptedCount (s :: req) := by
          rw [h1, acceptedCount_cons]; omega

lemma ingestOp_accepted (wrOk : Labels → List LogEntry → Bool)
    (parseTs : String → Option Int) (now : Int) (H : String → String)
    (bufSize : Nat) (st : PipeState) (req : List Stream) :
    (ingestOp wrOk parseTs now H bufSize st req).2.1 = acceptedCount req := by
  unfold ingestOp
  have := ingest_foldl_accepted wrOk parseTs now H bufSize req (st, 0)
  simpa using this

/-! ## Claim C9 — non-blocking broadcast with lossy backpressure -/

/-- C9 (confirmed): the hub channel has capacity 1000; `Broadcast` is a total
function (the Go `select` with a `default` arm never blocks) that drops the
entry with a logged warning when the channel is full and enqueues it
otherwise; the per-entry ingest step appends the entry to the durable-storage
buffer and counts it as accepted even when the hub dropped it, and `Ingest`
reports the full accepted count and a nil error regardless of hub state. -/
theorem c9_broadcast_lossy :
    hubCapacity = 1000 ∧
    (∀ (st : PipeState) (e : LogEntry), hubCapacity ≤ st.hubQueue.length →
      (broadcastHub e st).hubQueue = st.hubQueue ∧
      (broadcastHub e st).hubDropped = st.hubDropped + 1) ∧
    (∀ (st : PipeState) (e : LogEntry), st.hubQueue.length < hubCapacity →
      (broadcastHub e st).hubQueue = st.hubQueue ++ [e] ∧
      (broadcastHub e st).hubDropped = st.hubDropped) ∧
    (∀ (parseTs : String → Option Int) (now : Int) (labels : Labels)
      (st : PipeState) (buf : LogBuffer) (n : Nat) (e : Entry),
      hubCapacity ≤ st.hubQueue.length →
      (processEntry parseTs now labels (st, buf, n) e).2.1.entries =
        buf.entries ++
          [⟨mkEntryId st.nextEntryId, (parseTs e.ts).getD now, e.line, labels⟩] ∧
      (processEntry parseTs now labels (st, buf, n) e).2.2 = n + 1 ∧
      (processEntry parseTs now labels (st, buf, n) e).1.hubQueue = st.hubQueue ∧
      (processEntry parseTs now labels (st, buf, n) e).1.hubDropped
        = st.hubDropped + 1) ∧
    (∀ wrOk parseTs now H bufSize (st : PipeState) req,
      (ingestOp wrOk parseTs now H bufSize st req).2.1 = acceptedCount req ∧
      (ingestOp wrOk parseTs now H bufSize st req).2.2 = none) := by
  refine ⟨rfl, ?_, ?_, ?_, ?_⟩
  · intro st e h
    have hnot : ¬(st.hubQueue.length < hubCapacity) := Nat.not_lt.mpr h
    exact ⟨by simp [broadcastHub, hnot], by simp [broadcastHub, hnot]⟩
  · intro st e h
    exact ⟨by simp [broadcastHub, h], by simp [broadcastHub, h]⟩
  · intro parseTs now labels st buf n e h
    have hnot : ¬(st.hubQueue.length < hubCapacity) := Nat.not_lt.mpr h
    refine ⟨?_, ?_, ?_, ?_⟩ <;> simp [processEntry, broadcastHub, hnot]
  · intro wrOk parseTs now H bufSize st req
    exact ⟨ingestOp_accepted wrOk parseTs now H bufSize st req, rfl⟩

/-- Witness for `c9_broadcast_lossy`: a full hub queue drops the entry. -/
theorem c9_broadcast_lossy_witness :
    hubCapacity ≤ (List.replicate 1000 (⟨"0", 0, "x", []⟩ : LogEntry)).length ∧
    (broadcastHub ⟨"0", 0, "x", []⟩
      { initState with
          hubQueue := List.replicate 1000 ⟨"0", 0, "x", []⟩ }).hubQueue
      = List.replicate 1000 ⟨"0", 0, "x", []⟩ := by
  have hlen : (List.replicate 1000 (⟨"0", 0, "x", []⟩ : LogEntry)).length = 1000 :=
    List.length_replicate 1000 _
  refine ⟨by rw [hlen]; exact Nat.le_refl 1000, ?_⟩
  exact (c9_broadcast_lossy.2.1
    { initState with hubQueue := List.replicate 1000 ⟨"0", 0, "x", []⟩ }
    ⟨"0", 0, "x", []⟩ (by rw [hlen]; exact Nat.le_refl 1000)).1

/-! ## Claim C1 — flush failures and the buffer -/

/-- C1 counterexample: with a writer whose `WriteChunk` always fails, (i)
`flushAll` still resets the only buffer to empty, dropping its entry with
nothing written and nothing indexed; (ii) the size-triggered flush inside
`Ingest` (buffer size 1) likewise replaces the stream's buffer with a fresh
empty one while the request reports 1 accepted entry. The claimed
"entries remain in the buffer and are retried" behavior is false: the code
resets the buffer unconditionally, not only on success. -/
theorem c1_counterexample :
    (flushAllOp (fun _ _ => false)
      { initState with
          buffers := [("h", ⟨[("a", "b")], [⟨"0", 1, "x", [("a", "b")]⟩], 1⟩)] }).buffers
      = [("h", ⟨[("a", "b")], [], 0⟩)] ∧
    (flushAllOp (fun _ _ => false)
      { initState with
          buffers := [("h", ⟨[("a", "b")], [⟨"0", 1, "x", [("a", "b")]⟩], 1⟩)] }).chunks
      = [] ∧
    (flushAllOp (fun _ _ => false)
      { initState with
          buffers := [("h", ⟨[("a", "b")], [⟨"0", 1, "x", [("a", "b")]⟩], 1⟩)] }).index
      = [] ∧
    (ingestOp (fun _ _ => false) (fun _ => none) 0 (fun s => s) 1 initState
      [⟨[("a", "b")], [⟨"t", "x"⟩]⟩]).1.buffers
      = [("a=b,", ⟨[("a", "b")], [], 0⟩)] ∧
    (ingestOp (fun _ _ => false) (fun _ => none) 0 (fun s => s) 1 initState
      [⟨[("a", "b")], [⟨"t", "x"⟩]⟩]).1.chunks = [] ∧
    (ingestOp (fun _ _ => false) (fun _ => none) 0 (fun s => s) 1 initState
      [⟨[("a", "b")], [⟨"t", "x"⟩]⟩]).2.1 = 1 := by
  decide

lemma flushAllList_empty_entries (wrOk : Labels → List LogEntry → Bool) :
    ∀ (bs : List (String × LogBuffer)) (st : PipeState),
      ∀ p ∈ (flushAllList wrOk st bs).2, p.2.entries = [] := by
  intro bs
  induction bs with
  | nil => intro st p hp; cases hp
  | cons hb bs ih =>
    intro st p hp
    obtain ⟨h, b⟩ := hb
    unfold flushAllList at hp
    by_cases hemp : b.entries.isEmpty
    · rw [if_pos hemp] at hp
      rcases List.mem_cons.mp hp with rfl | hp2
      · exact List.isEmpty_iff.mp hemp
      · exact ih st p hp2
    · rw [if_neg hemp] at hp
      rcases List.mem_cons.mp hp with rfl | hp2
      · rfl
      · exact ih (flushBufferOp wrOk st b) p hp2

/-- C1 (corrected): a flush failure is logged and produces no chunk and no
index entry, but the buffer is reset regardless of success: after `flushAll`
every buffer's entry list is empty, and a size-triggered flush inside
`Ingest` always replaces the stream's buffer by a fresh empty one, so the
entries of a failed flush are dropped, not retried on the next trigger. -/
theorem c1_flush_resets_unconditionally :
    (∀ (wrOk : Labels → List LogEntry → Bool) (st : PipeState),
      ∀ p ∈ (flushAllOp wrOk st).buffers, p.2.entries = []) ∧
    (∀ (wrOk : Labels → List LogEntry → Bool) (st : PipeState) (buf : LogBuffer),
      wrOk buf.labels buf.entries = false → flushBufferOp wrOk st buf = st) ∧
    (∀ (wrOk : Labels → List LogEntry → Bool) (parseTs : String → Option Int)
      (now : Int) (H : String → String) (bufSize : Nat)
      (acc : PipeState × Nat) (s : Stream), 1 ≤ bufSize →
      (∀ p ∈ acc.1.buffers, p.2.entries.length < bufSize) →
      ∀ p ∈ (ingestStream wrOk parseTs now H bufSize acc s).1.buffers,
        p.2.entries.length < bufSize) := by
  refine ⟨?_, ?_, ?_⟩
  · intro wrOk st p hp
    unfold flushAllOp at hp
    exact flushAllList_empty_entries wrOk st.buffers { st with buffers := [] } p hp
  · intro wrOk st buf hfail
    unfold flushBufferOp
    split
    · rfl
    · rw [hfail]; simp
  · intro wrOk parseTs now H bufSize acc s hbs hinv p hp
    unfold ingestStream at hp
    by_cases hv : validateStream s
    · simp only [hv, Bool.not_true, Bool.false_eq_true, if_false] at hp
      set h := fingerprintWith H s.labels with hh
      set buf0 := (match acc.1.buffers.lookup h with
        | some b => b
        | none => (⟨s.labels, [], 0⟩ : LogBuffer)) with hbuf0
      set r := s.entries.foldl (processEntry parseTs now s.labels)
        (acc.1, buf0, 0) with hr
      have hb1r : r.1.buffers = acc.1.buffers := by
        rw [hr]
        exact foldl_processEntry_buffers parseTs now s.labels s.entries acc.1 buf0 0
      by_cases hfull : bufSize ≤ r.2.1.entries.length
      · rw [if_pos hfull] at hp
        have hb2 := flushBufferOp_buffers wrOk r.1 r.2.1
        rcases mem_setBuffer _ h ⟨s.labels, [], 0⟩ p hp with rfl | hp2
        · simpa using hbs
        · rw [hb2, hb1r] at hp2
          exact hinv p hp2
      · rw [if_neg hfull] at hp
        rcases mem_setBuffer _ h r.2.1 p hp with rfl | hp2
        · exact Nat.not_le.mp hfull
        · rw [hb1r] at hp2
          exact hinv p hp2
    · simp only [hv] at hp
      simp only [Bool.not_false, if_true] at hp
      exact hinv p hp

/-- Witness for `c1_flush_resets_unconditionally` at a failing writer. -/
theorem c1_flush_resets_unconditionally_witness :
    ("h", (⟨[("a", "b")], [], 0⟩ : LogBuffer)) ∈
      (flushAllOp (fun _ _ => false)
        { initState with
            buffers := [("h", ⟨[("a", "b")], [⟨"0", 1, "x", [("a", "b")]⟩], 1⟩)] }).buffers ∧
    (⟨[("a", "b")], [], 0⟩ : LogBuffer).entries = [] := by
  refine ⟨by decide, ?_⟩
  exact c1_flush_resets_unconditionally.1 (fun _ _ => false)
    { initState with
        buffers := [("h", ⟨[("a", "b")], [⟨"0", 1, "x", [("a", "b")]⟩], 1⟩)] }
    ("h", ⟨[("a", "b")], [], 0⟩) (by decide)

/-! ## Claim C10 — ingest after stop -/

/-- Overwrite the `stopped` flag (the only state component `Stop` adds over
its final `flushAll`). -/
def setStopped (st : PipeState) (b : Bool) : PipeState := { st with stopped := b }

lemma setStopped_self (st : PipeState) : setStopped st st.stopped = st := by
  cases st; rfl

lemma broadcastHub_setStopped (e : LogEntry) (st : PipeState) (b : Bool) :
    broadcastHub e (setStopped st b) = setStopped (broadcastHub e st) b := by
  by_cases h : st.hubQueue.length < hubCapacity <;>
    simp [broadcastHub, setStopped, h]

lemma processEntry_setStopped (parseTs : String → Option Int) (now : Int)
    (labels : Labels) (st : PipeState) (buf : LogBuffer) (n : Nat) (e : Entry)
    (b : Bool) :
    processEntry parseTs now labels (setStopped st b, buf, n) e =
      (setStopped (processEntry parseTs now labels (st, buf, n) e).1 b,
        (processEntry parseTs now labels (st, buf, n) e).2) := by
  by_cases h : st.hubQueue.length < hubCapacity <;>
    simp [processEntry, broadcastHub, setStopped, h]

lemma foldl_processEntry_setStopped (parseTs : String → Option Int) (now : Int)
    (labels : Labels) :
    ∀ (es : List Entry) (st : PipeState) (buf : LogBuffer) (n : Nat) (b : Bool),
      es.foldl (processEntry parseTs now labels) (setStopped st b, buf, n) =
        (setStopped (es.foldl (processEntry parseTs now labels) (st, buf, n)).1 b,
          (es.foldl (processEntry parseTs now labels) (st, buf, n)).2) := by
  intro es
  induction es with
  | nil => intro st buf n b; rfl
  | cons e es ih =>
    intro st buf n b
    show es.foldl (processEntry parseTs now labels)
        (processEntry parseTs now labels (setStopped st b, buf, n) e) = _
    rw [processEntry_setStopped]
    have := ih (processEntry parseTs now labels (st, buf, n) e).1
      (processEntry parseTs now labels (st, buf, n) e).2.1
      (processEntry parseTs now labels (st, buf, n) e).2.2 b
    simpa using this

lemma flushBufferOp_setStopped (wrOk : Labels → List LogEntry → Bool)
    (st : PipeState) (buf : LogBuffer) (b : Bool) :
    flushBufferOp wrOk (setStopped st b) buf
      = setStopped (flushBufferOp wrOk st buf) b := by
  cases st
  unfold flushBufferOp
  split
  · rfl
  · split <;> simp [setStopped]

lemma ingestStream_setStopped (wrOk : Labels → List LogEntry → Bool)
    (parseTs : String → Option Int) (now : Int) (H : String → String)
    (bufSize : Nat) (st : PipeState) (n : Nat) (s : Stream) (b : Bool) :
    ingestStream wrOk parseTs now H bufSize (setStopped st b, n) s =
      (setStopped (ingestStream wrOk parseTs now H bufSize (st, n) s).1 b,
        (ingestStream wrOk parseTs now H bufSize (st, n) s).2) := by
  unfold ingestStream
  by_cases hv : validateStream s
  · simp only [hv, Bool.not_true, Bool.false_eq_true, if_false]
    have hbuf : (setStopped st b).buffers = st.buffers := rfl
    rw [hbuf]
    rw [foldl_processEntry_setStopped]
    set r := s.entries.foldl (processEntry parseTs now s.labels)
      (st, (match st.buffers.lookup (fingerprintWith H s.labels) with
        | some bb => bb
        | none => (⟨s.labels, [], 0⟩ : LogBuffer)), 0) with hr
    by_cases hfull : bufSize ≤ r.2.1.entries.length
    · simp only [hfull, if_true]
      rw [flushBufferOp_setStopped]
      cases flushBufferOp wrOk r.1 r.2.1
      simp [setStopped]
    · simp only [hfull, if_false]
      cases r1 : r.1
      simp [setStopped]
  · simp [hv]

lemma ingest_foldl_setStopped (wrOk : Labels → List LogEntry → Bool)
    (parseTs : String → Option Int) (now : Int) (H : String → String)
    (bufSize : Nat) :
    ∀ (req : List Stream) (st : PipeState) (n : Nat) (b : Bool),
      req.foldl (ingestStream wrOk parseTs now H bufSize) (setStopped st b, n) =
        (setStopped
          (req.foldl (ingestStream wrOk parseTs now H bufSize) (st, n)).1 b,
          (req.foldl (ingestStream wrOk parseTs now H bufSize) (st, n)).2) := by
  intro req
  induction req with
  | nil => intro st n b; rfl
  | cons s req ih =>
    intro st n b
    show req.foldl (ingestStream wrOk parseTs now H bufSize)
        (ingestStream wrOk parseTs now H bufSize (setStopped st b, n) s) = _
    rw [ingestStream_setStopped]
    have := ih (ingestStream wrOk parseTs now H bufSize (st, n) s).1
      (ingestStream wrOk parseTs now H bufSize (st, n) s).2 b
    simpa using this

lemma ingestOp_setStopped (wrOk : Labels → List LogEntry → Bool)
    (parseTs : String → Option Int) (now : Int) (H : String → String)
    (bufSize : Nat) (st : PipeState) (req : List Stream) (b : Bool) :
    ingestOp wrOk parseTs now H bufSize (setStopped st b) req =
      (setStopped (ingestOp wrOk parseTs now H bufSize st req).1 b,
        (ingestOp wrOk parseTs now H bufSize st req).2) := by
  unfold ingestOp
  rw [ingest_foldl_setStopped]

/-- C10 (confirmed): `Ingest` performs no lifecycle check. After `Stop` has
returned, a call on the same pipeline still succeeds for every valid request:
it returns the full accepted entry count with a nil error, the pipeline stays
stopped (the flush worker has exited, so only a size-triggered flush could
ever write these entries out), and in general ingest behaves identically
whatever the value of the stopped flag. -/
theorem c10_ingest_after_stop (wrOk : Labels → List LogEntry → Bool)
    (parseTs : String → Option Int) (now : Int) (H : String → String)
    (bufSize : Nat) (st : PipeState) (req : List Stream)
    (hvalid : req.all (fun s => validateStream s) = true) :
    (ingestOp wrOk parseTs now H bufSize (stopOp wrOk st) req).2.1 =
      (req.map (fun s => s.entries.length)).sum ∧
    (ingestOp wrOk parseTs now H bufSize (stopOp wrOk st) req).2.2 = none ∧
    (ingestOp wrOk parseTs now H bufSize (stopOp wrOk st) req).1.stopped = true ∧
    (∀ b : Bool, ingestOp wrOk parseTs now H bufSize (setStopped st b) req =
      (setStopped (ingestOp wrOk parseTs now H bufSize st req).1 b,
        (ingestOp wrOk parseTs now H bufSize st req).2)) := by
  refine ⟨?_, rfl, ?_, ?_⟩
  · rw [ingestOp_accepted]
    unfold acceptedCount
    rw [List.filter_eq_self.mpr]
    intro s hs
    exact (List.all_eq_true.mp hvalid) s hs
  · have hstop : stopOp wrOk st = setStopped (flushAllOp wrOk st) true := rfl
    rw [hstop, ingestOp_setStopped]
    rfl
  · intro b
    exact ingestOp_setStopped wrOk parseTs now H bufSize st req b

/-- Witness for `c10_ingest_after_stop`: ingesting one valid one-entry stream
into a stopped pipeline is accepted in full. -/
theorem c10_ingest_after_stop_witness :
    (([⟨[("a", "b")], [⟨"t", "x"⟩]⟩] : List Stream).all
      (fun s => validateStream s)) = true ∧
    (ingestOp (fun _ _ => true) (fun _ => none) 0 (fun s => s) 10
      (stopOp (fun _ _ => true) initState) [⟨[("a", "b")], [⟨"t", "x"⟩]⟩]).2.1
      = (([⟨[("a", "b")], [⟨"t", "x"⟩]⟩] : List Stream).map
          (fun s => s.entries.length)).sum := by
  refine ⟨by decide, ?_⟩
  exact (c10_ingest_after_stop (fun _ _ => true) (fun _ => none) 0 (fun s => s)
    10 initState [⟨[("a", "b")], [⟨"t", "x"⟩]⟩] (by decide)).1

/-! ## Claim C2 — chunk entries carry the chunk's label set -/

/-- C2 counterexample: the two *distinct* valid label sets `{a: "b,c=d"}` and
`{a: "b", c: "d"}` serialize to the same pre-hash string `"a=b,c=d,"`
(label values may contain `,` and `=`; only newlines are rejected), so they
produce the same fingerprint under *any* hash of the serialization —
including SHA-256 — and share one ingest buffer. Flushing that buffer writes
a chunk whose label set is the first stream's, yet it persists the second
stream's entry carrying different labels, refuting the claim (the model's
hash parameter is the identity, which is collision-free, so this is a
serialization collision, not a hash collision). -/
theorem c2_counterexample :
    (ingestOp (fun _ _ => true) (fun _ => none) 0 (fun s => s) 2 initState
      [⟨[("a", "b,c=d")], [⟨"t", "l1"⟩]⟩,
        ⟨[("a", "b"), ("c", "d")], [⟨"t", "l2"⟩]⟩]).1.chunks =
      [⟨"chunk_1", [("a", "b,c=d")],
        [⟨"0", 0, "l1", [("a", "b,c=d")]⟩,
          ⟨"1", 0, "l2", [("a", "b"), ("c", "d")]⟩]⟩] ∧
    validateStream ⟨[("a", "b,c=d")], [⟨"t", "l1"⟩]⟩ = true ∧
    validateStream ⟨[("a", "b"), ("c", "d")], [⟨"t", "l2"⟩]⟩ = true ∧
    ([("a", "b"), ("c", "d")] : Labels) ≠ [("a", "b,c=d")] := by
  decide

/-- The inductive invariant for C2: every buffer is keyed by the fingerprint
of its own labels, carries the labels of some ingested stream, and holds only
entries labelled with exactly those labels; every written chunk holds only
entries labelled with the chunk's labels. -/
def BufInv (H : String → String) (L : List Labels) (st : PipeState) : Prop :=
  (∀ p ∈ st.buffers, p.1 = fingerprintWith H p.2.labels ∧ p.2.labels ∈ L ∧
    ∀ en ∈ p.2.entries, en.labels = p.2.labels) ∧
  (∀ c ∈ st.chunks, ∀ en ∈ c.entries, en.labels = c.labels)

lemma lookup_mem (l : List (String × LogBuffer)) (k : String) (v : LogBuffer)
    (h : l.lookup k = some v) : (k, v) ∈ l := by
  induction l with
  | nil => cases h
  | cons p tl ih =>
    obtain ⟨k1, v1⟩ := p
    by_cases hk : (k == k1) = true
    · have hk2 : k = k1 := by simpa using hk
      simp only [List.lookup, hk] at h
      injection h with h2
      subst h2
      subst hk2
      exact List.mem_cons_self _ _
    · simp only [List.lookup, Bool.not_eq_true] at h
      rw [Bool.not_eq_true] at hk
      rw [hk] at h
      exact List.mem_cons_of_mem _ (ih h)

lemma processEntry_buf2 (parseTs : String → Option Int) (now : Int)
    (labels : Labels) (st : PipeState) (buf : LogBuffer) (n : Nat) (e : Entry) :
    (processEntry parseTs now labels (st, buf, n) e).2.1 =
      { buf with
          entries := buf.entries ++
            [⟨mkEntryId st.nextEntryId, (parseTs e.ts).getD now, e.line, labels⟩],
          size := buf.size + e.line.length } := by
  by_cases h : st.hubQueue.length < hubCapacity <;>
    simp [processEntry, broadcastHub, h]

lemma foldl_processEntry_buf_inv (parseTs : String → Option Int) (now : Int)
    (labels : Labels) :
    ∀ (es : List Entry) (st : PipeState) (buf : LogBuffer) (n : Nat),
      buf.labels = labels →
      (∀ en ∈ buf.entries, en.labels = labels) →
      ((es.foldl (processEntry parseTs now labels) (st, buf, n)).2.1.labels
          = labels ∧
        ∀ en ∈ (es.foldl (processEntry parseTs now labels) (st, buf, n)).2.1.entries,
          en.labels = labels) := by
  intro es
  induction es with
  | nil => intro st buf n h1 h2; exact ⟨h1, h2⟩
  | cons e es ih =>
    intro st buf n h1 h2
    have hstep := processEntry_buf2 parseTs now labels st buf n e
    have hl : (processEntry parseTs now labels (st, buf, n) e).2.1.labels
        = labels := by rw [hstep]; exact h1
    have he : ∀ en ∈ (processEntry parseTs now labels (st, buf, n) e).2.1.entries,
        en.labels = labels := by
      rw [hstep]
      intro en hen
      rcases List.mem_append.mp hen with hh | hh
      · exact h2 en hh
      · rcases List.mem_singleton.mp hh with rfl
        rfl
    have := ih (processEntry parseTs now labels (st, buf, n) e).1
      (processEntry parseTs now labels (st, buf, n) e).2.1
      (processEntry parseTs now labels (st, buf, n) e).2.2 hl he
    simpa using this

lemma flushBufferOp_chunks_inv (wrOk : Labels → List LogEntry → Bool)
    (st : PipeState) (buf : LogBuffer)
    (hbe : ∀ en ∈ buf.entries, en.labels = buf.labels)
    (hc : ∀ c ∈ st.chunks, ∀ en ∈ c.entries, en.labels = c.labels) :
    ∀ c ∈ (flushBufferOp wrOk st buf).chunks, ∀ en ∈ c.entries,
      en.labels = c.labels := by
  unfold flushBufferOp
  split
  · exact hc
  · split
    · intro c hcm
      rcases List.mem_append.mp hcm with hh | hh
      · exact hc c hh
      · rcases List.mem_singleton.mp hh with rfl
        exact hbe
    · exact hc

lemma flushBufferOp_chunkSeq_etc (wrOk : Labels → List LogEntry → Bool)
    (st : PipeState) (buf : LogBuffer) :
    (flushBufferOp wrOk st buf).stopped = st.stopped := by
  unfold flushBufferOp
  split
  · rfl
  · split <;> rfl

lemma processEntry_all_state (parseTs : String → Option Int) (now : Int)
    (labels : Labels) :
    ∀ (es : List Entry) (st : PipeState) (buf : LogBuffer) (n : Nat),
      ((es.foldl (processEntry parseTs now labels) (st, buf, n)).1).chunks
        = st.chunks := by
  intro es
  induction es with
  | nil => intro st buf n; rfl
  | cons e es ih =>
    intro st buf n
    have h1 := processEntry_chunks parseTs now labels st buf n e
    have := ih (processEntry parseTs now labels (st, buf, n) e).1
      (processEntry parseTs now labels (st, buf, n) e).2.1
      (processEntry parseTs now labels (st, buf, n) e).2.2
    calc ((es.foldl (processEntry parseTs now labels)
            (processEntry parseTs now labels (st, buf, n) e)).1).chunks
        = (processEntry parseTs now labels (st, buf, n) e).1.chunks := by
          simpa using this
      _ = st.chunks := h1

lemma ingestStream_inv (wrOk : Labels → List LogEntry → Bool)
    (parseTs : String → Option Int) (now : Int) (H : String → String)
    (bufSize : Nat) (L : List Labels)
    (hinjL : ∀ l1 ∈ L, ∀ l2 ∈ L,
      fingerprintWith H l1 = fingerprintWith H l2 → l1 = l2)
    (acc : PipeState × Nat) (s : Stream) (hsl : s.labels ∈ L)
    (hinv : BufInv H L acc.1) :
    BufInv H L (ingestStream wrOk parseTs now H bufSize acc s).1 := by
  unfold ingestStream
  by_cases hv : validateStream s
  · simp only [hv, Bool.not_true, Bool.false_eq_true, if_false]
    set h := fingerprintWith H s.labels with hh
    have hbuf0 : ∀ buf0, (match acc.1.buffers.lookup h with
        | some b => b
        | none => (⟨s.labels, [], 0⟩ : LogBuffer)) = buf0 →
        buf0.labels = s.labels ∧ ∀ en ∈ buf0.entries, en.labels = s.labels := by
      intro buf0 hb
      cases hlk : acc.1.buffers.lookup h with
      | some b =>
        rw [hlk] at hb
        have hmem := lookup_mem acc.1.buffers h b hlk
        obtain ⟨hkey, hmemL, hentries⟩ := hinv.1 (h, b) hmem
        have hlab : b.labels = s.labels :=
          hinjL b.labels hmemL s.labels hsl (by rw [← hkey, hh])
        subst hb
        exact ⟨hlab, fun en hen => (hentries en hen).trans hlab⟩
      | none =>
        rw [hlk] at hb
        subst hb
        exact ⟨rfl, fun en hen => absurd hen (List.not_mem_nil en)⟩
    obtain ⟨hbl, hbe⟩ := hbuf0 _ rfl
    set buf0 := (match acc.1.buffers.lookup h with
      | some b => b
      | none => (⟨s.labels, [], 0⟩ : LogBuffer)) with hb0
    set r := s.entries.foldl (processEntry parseTs now s.labels)
      (acc.1, buf0, 0) with hr
    have hfold := foldl_processEntry_buf_inv parseTs now s.labels s.entries
      acc.1 buf0 0 hbl hbe
    have hrl : r.2.1.labels = s.labels := by rw [hr]; exact hfold.1
    have hre : ∀ en ∈ r.2.1.entries, en.labels = s.labels := by
      rw [hr]; exact hfold.2
    have hrbuffers : r.1.buffers = acc.1.buffers := by
      rw [hr]
      exact foldl_processEntry_buffers parseTs now s.labels s.entries acc.1 buf0 0
    have hrchunks : r.1.chunks = acc.1.chunks := by
      rw [hr]
      exact processEntry_all_state parseTs now s.labels s.entries acc.1 buf0 0
    by_cases hfull : bufSize ≤ r.2.1.entries.length
    · rw [if_pos hfull]
      constructor
      · intro p hp
        rcases mem_setBuffer _ h ⟨s.labels, [], 0⟩ p hp with rfl | hp2
        · exact ⟨hh, hsl, fun en hen => absurd hen (List.not_mem_nil en)⟩
        · rw [flushBufferOp_buffers, hrbuffers] at hp2
          exact hinv.1 p hp2
      · intro c hc
        refine flushBufferOp_chunks_inv wrOk r.1 r.2.1 ?_ ?_ c hc
        · intro en hen
          rw [hrl]
          exact hre en hen
        · rw [hrchunks]
          exact hinv.2
    · rw [if_neg hfull]
      constructor
      · intro p hp
        rcases mem_setBuffer _ h r.2.1 p hp with rfl | hp2
        · refine ⟨by rw [hh, hrl], by rw [hrl]; exact hsl, ?_⟩
          intro en hen
          rw [hrl]
          exact hre en hen
        · rw [hrbuffers] at hp2
          exact hinv.1 p hp2
      · intro c hc
        rw [hrchunks] at hc
        exact hinv.2 c hc
  · simpa [hv] using hinv

lemma ingest_foldl_inv (wrOk : Labels → List LogEntry → Bool)
    (parseTs : String → Option Int) (now : Int) (H : String → String)
    (bufSize : Nat) (L : List Labels)
    (hinjL : ∀ l1 ∈ L, ∀ l2 ∈ L,
      fingerprintWith H l1 = fingerprintWith H l2 → l1 = l2) :
    ∀ (req : List Stream) (acc : PipeState × Nat),
      (∀ s ∈ req, s.labels ∈ L) → BufInv H L acc.1 →
      BufInv H L (req.foldl (ingestStream wrOk parseTs now H bufSize) acc).1 := by
  intro req
  induction req with
  | nil => intro acc _ hinv; exact hinv
  | cons s req ih =>
    intro acc hs hinv
    exact ih (ingestStream wrOk parseTs now H bufSize acc s)
      (fun s2 hs2 => hs s2 (List.mem_cons_of_mem s hs2))
      (ingestStream_inv wrOk parseTs now H bufSize L hinjL acc s
        (hs s (List.mem_cons_self s req)) hinv)

lemma flushAllList_chunks_inv (wrOk : Labels → List LogEntry → Bool) :
    ∀ (bs : List (String × LogBuffer)) (st : PipeState),
      (∀ p ∈ bs, ∀ en ∈ p.2.entries, en.labels = p.2.labels) →
      (∀ c ∈ st.chunks, ∀ en ∈ c.entries, en.labels = c.labels) →
      ∀ c ∈ (flushAllList wrOk st bs).1.chunks, ∀ en ∈ c.entries,
        en.labels = c.labels := by
  intro bs
  induction bs with
  | nil => intro st _ hc; exact hc
  | cons hb bs ih =>
    intro st hbs hc
    obtain ⟨h, b⟩ := hb
    unfold flushAllList
    by_cases hemp : b.entries.isEmpty
    · rw [if_pos hemp]
      exact ih st (fun p hp => hbs p (List.mem_cons_of_mem _ hp)) hc
    · rw [if_neg hemp]
      refine ih (flushBufferOp wrOk st b)
        (fun p hp => hbs p (List.mem_cons_of_mem _ hp)) ?_
      exact flushBufferOp_chunks_inv wrOk st b
        (hbs (h, b) (List.mem_cons_self _ _)) hc

/-- The full ingest trace: requests applied in order to the fresh pipeline. -/
def runTrace (wrOk : Labels → List LogEntry → Bool)
    (parseTs : String → Option Int) (now : Int) (H : String → String)
    (bufSize : Nat) (reqs : List (List Stream)) : PipeState :=
  reqs.foldl (fun st req => (ingestOp wrOk parseTs now H bufSize st req).1)
    initState

/-- C2 (corrected): every chunk produced by any flush of any ingest trace —
size-triggered or via the final `flushAll` of `Stop` — holds only entries
labelled with the chunk's own label set, *provided* no two streams of the
trace have colliding fingerprints. Without that proviso the claim is false
(see the counterexample: distinct valid label sets can share a fingerprint
because the `k=v,` serialization is not injective, commas being legal in
values, so the streams share a buffer). -/
theorem c2_chunk_labels_no_collision (wrOk : Labels → List LogEntry → Bool)
    (parseTs : String → Option Int) (now : Int) (H : String → String)
    (bufSize : Nat) (reqs : List (List Stream))
    (hinj : ∀ s1 ∈ reqs.flatten, ∀ s2 ∈ reqs.flatten,
      fingerprintWith H s1.labels = fingerprintWith H s2.labels →
      s1.labels = s2.labels) :
    ∀ c ∈ (stopOp wrOk (runTrace wrOk parseTs now H bufSize reqs)).chunks,
      ∀ en ∈ c.entries, en.labels = c.labels := by
  classical
  set L := reqs.flatten.map (fun s => s.labels) with hL
  have hinjL : ∀ l1 ∈ L, ∀ l2 ∈ L,
      fingerprintWith H l1 = fingerprintWith H l2 → l1 = l2 := by
    intro l1 h1 l2 h2 hfp
    obtain ⟨s1, hs1, rfl⟩ := List.mem_map.mp h1
    obtain ⟨s2, hs2, rfl⟩ := List.mem_map.mp h2
    exact hinj s1 hs1 s2 hs2 hfp
  have htrace : ∀ (rs : List (List Stream)) (st : PipeState),
      (∀ req ∈ rs, ∀ s ∈ req, s.labels ∈ L) → BufInv H L st →
      BufInv H L (rs.foldl
        (fun st req => (ingestOp wrOk parseTs now H bufSize st req).1) st) := by
    intro rs
    induction rs with
    | nil => intro st _ hinv; exact hinv
    | cons req rs ih =>
      intro st hreq hinv
      refine ih ((ingestOp wrOk parseTs now H bufSize st req).1)
        (fun r2 hr2 => hreq r2 (List.mem_cons_of_mem _ hr2)) ?_
      unfold ingestOp
      exact ingest_foldl_inv wrOk parseTs now H bufSize L hinjL req (st, 0)
        (hreq req (List.mem_cons_self _ _)) hinv
  have hinit : BufInv H L initState :=
    ⟨fun p hp => absurd hp (List.not_mem_nil p),
      fun c hc => absurd hc (List.not_mem_nil c)⟩
  have hmemL : ∀ req ∈ reqs, ∀ s ∈ req, s.labels ∈ L := by
    intro req hreq s hs
    exact List.mem_map.mpr ⟨s, List.mem_flatten.mpr ⟨req, hreq, hs⟩, rfl⟩
  have hfinal : BufInv H L (runTrace wrOk parseTs now H bufSize reqs) :=
    htrace reqs initState hmemL hinit
  show ∀ c ∈ (flushAllOp wrOk (runTrace wrOk parseTs now H bufSize reqs)).chunks,
    ∀ en ∈ c.entries, en.labels = c.labels
  unfold flushAllOp
  intro c hc
  refine flushAllList_chunks_inv wrOk
    (runTrace wrOk parseTs now H bufSize reqs).buffers
    { runTrace wrOk parseTs now H bufSize reqs with buffers := [] }
    (fun p hp => (hfinal.1 p hp).2.2) (fun c2 hc2 => hfinal.2 c2 hc2) c hc

/-- Witness for `c2_chunk_labels_no_collision` on a collision-free trace. -/
theorem c2_chunk_labels_no_collision_witness :
    (⟨"chunk_1", [("a", "b")], [⟨"0", 0, "x", [("a", "b")]⟩]⟩ : ChunkRecord) ∈
      (stopOp (fun _ _ => true)
        (runTrace (fun _ _ => true) (fun _ => none) 0 (fun s => s) 1
          [[⟨[("a", "b")], [⟨"t", "x"⟩]⟩]])).chunks ∧
    (⟨"0", 0, "x", [("a", "b")]⟩ : LogEntry).labels = [("a", "b")] := by
  refine ⟨by decide, ?_⟩
  exact c2_chunk_labels_no_collision (fun _ _ => true) (fun _ => none) 0
    (fun s => s) 1 [[⟨[("a", "b")], [⟨"t", "x"⟩]⟩]] (by decide)
    ⟨"chunk_1", [("a", "b")], [⟨"0", 0, "x", [("a", "b")]⟩]⟩ (by decide)
    ⟨"0", 0, "x", [("a", "b")]⟩ (by decide)

/-! ## Claim C3 — fingerprint injectivity and order independence -/

/-- C3 counterexample: the distinct canonical label maps `{a: "b,c=d"}` and
`{a: "b", c: "d"}` — both valid, since label values may contain `,` and `=` —
serialize to the same string `"a=b,c=d,"`, so they share a fingerprint under
*every* hash function of the serialization, here the identity, which has no
collisions: the claimed equivalence fails even assuming a collision-free
hash, because the `k=v,` serialization itself is not injective. -/
theorem c3_counterexample :
    hashInput [("a", "b,c=d")] = hashInput [("a", "b"), ("c", "d")] ∧
    fingerprintWith (fun s => s) [("a", "b,c=d")]
      = fingerprintWith (fun s => s) [("a", "b"), ("c", "d")] ∧
    ([("a", "b,c=d")] : Labels) ≠ [("a", "b"), ("c", "d")] ∧
    validLabelKey "a" = true ∧ validLabelKey "c" = true ∧
    validLabelValue "b,c=d" = true ∧ validLabelValue "b" = true ∧
    validLabelValue "d" = true := by
  decide

lemma append_sep_inj {c : Char} :
    ∀ {a b x y : List Char}, a ++ c :: x = b ++ c :: y →
      c ∉ a → c ∉ b → a = b ∧ x = y := by
  intro a
  induction a with
  | nil =>
    intro b x y h _ hb
    cases b with
    | nil => simpa using h
    | cons d bs =>
      simp only [List.nil_append, List.cons_append, List.cons.injEq] at h
      exact absurd (h.1 ▸ List.mem_cons_self d bs) (h.1 ▸ hb)
  | cons d as ih =>
    intro b x y h ha hb
    cases b with
    | nil =>
      simp only [List.cons_append, List.nil_append, List.cons.injEq] at h
      exact absurd (h.1 ▸ List.mem_cons_self d as) (fun hc => ha (h.1 ▸ hc))
    | cons d2 bs =>
      simp only [List.cons_append, List.cons.injEq] at h
      have hrec := ih h.2 (fun hc => ha (List.mem_cons_of_mem d hc))
        (fun hc => hb (List.mem_cons_of_mem d2 hc))
      exact ⟨by rw [h.1, hrec.1], hrec.2⟩

/-- The `k=v,` serialization at the character-list level. -/
def serializePairsL : List (List Char × List Char) → List Char
  | [] => []
  | (k, v) :: rest => k ++ '=' :: (v ++ ',' :: serializePairsL rest)

lemma serializePairsL_inj :
    ∀ (l1 l2 : List (List Char × List Char)),
      (∀ p ∈ l1, '=' ∉ p.1) → (∀ p ∈ l2, '=' ∉ p.1) →
      (∀ p ∈ l1, ',' ∉ p.2) → (∀ p ∈ l2, ',' ∉ p.2) →
      serializePairsL l1 = serializePairsL l2 → l1 = l2 := by
  intro l1
  induction l1 with
  | nil =>
    intro l2 _ _ _ _ h
    cases l2 with
    | nil => rfl
    | cons p rest =>
      obtain ⟨k, v⟩ := p
      simp [serializePairsL] at h
  | cons p l1 ih =>
    intro l2 hk1 hk2 hv1 hv2 h
    obtain ⟨k1, v1⟩ := p
    cases l2 with
    | nil => simp [serializePairsL] at h
    | cons p2 l2 =>
      obtain ⟨k2, v2⟩ := p2
      simp only [serializePairsL] at h
      have h1 := append_sep_inj h
        (hk1 (k1, v1) (List.mem_cons_self _ _))
        (hk2 (k2, v2) (List.mem_cons_self _ _))
      have h2 := append_sep_inj h1.2
        (hv1 (k1, v1) (List.mem_cons_self _ _))
        (hv2 (k2, v2) (List.mem_cons_self _ _))
      have h3 := ih l2
        (fun q hq => hk1 q (List.mem_cons_of_mem _ hq))
        (fun q hq => hk2 q (List.mem_cons_of_mem _ hq))
        (fun q hq => hv1 q (List.mem_cons_of_mem _ hq))
        (fun q hq => hv2 q (List.mem_cons_of_mem _ hq)) h2.2
      rw [h1.1, h2.1, h3]

/-- The `k=v,` serialization on string pairs, in list order; on key-sorted
labels this is exactly what `Labels.Hash` feeds the hash (shown below). -/
def serializePairs : Labels → String
  | [] => ""
  | (k, v) :: rest => k ++ "=" ++ v ++ "," ++ serializePairs rest

/-- Character data of a label list's pairs. -/
def labelsData (l : Labels) : List (List Char × List Char) :=
  l.map (fun kv => (kv.1.data, kv.2.data))

lemma strData_append (a b : String) : (a ++ b).data = a.data ++ b.data := by
  cases a; cases b; rfl

lemma serializePairs_data (l : Labels) :
    (serializePairs l).data = serializePairsL (labelsData l) := by
  induction l with
  | nil => rfl
  | cons p rest ih =>
    obtain ⟨k, v⟩ := p
    show (k ++ "=" ++ v ++ "," ++ serializePairs rest).data
      = k.data ++ '=' :: (v.data ++ ',' :: serializePairsL (labelsData rest))
    rw [strData_append, strData_append, strData_append, strData_append, ih]
    show k.data ++ ['='] ++ v.data ++ [','] ++ serializePairsL (labelsData rest)
      = k.data ++ '=' :: (v.data ++ ',' :: serializePairsL (labelsData rest))
    simp

lemma string_data_inj {a b : String} (h : a.data = b.data) : a = b := by
  cases a; cases b; cases h; rfl

lemma serializePairs_inj (l1 l2 : Labels)
    (hk1 : ∀ p ∈ l1, '=' ∉ p.1.data) (hk2 : ∀ p ∈ l2, '=' ∉ p.1.data)
    (hv1 : ∀ p ∈ l1, ',' ∉ p.2.data) (hv2 : ∀ p ∈ l2, ',' ∉ p.2.data)
    (h : serializePairs l1 = serializePairs l2) : l1 = l2 := by
  have hdata : serializePairsL (labelsData l1) = serializePairsL (labelsData l2) := by
    rw [← serializePairs_data, ← serializePairs_data, h]
  have hld : labelsData l1 = labelsData l2 := by
    refine serializePairsL_inj (labelsData l1) (labelsData l2) ?_ ?_ ?_ ?_ hdata
    · intro p hp
      obtain ⟨kv, hkv, rfl⟩ := List.mem_map.mp hp
      exact hk1 kv hkv
    · intro p hp
      obtain ⟨kv, hkv, rfl⟩ := List.mem_map.mp hp
      exact hk2 kv hkv
    · intro p hp
      obtain ⟨kv, hkv, rfl⟩ := List.mem_map.mp hp
      exact hv1 kv hkv
    · intro p hp
      obtain ⟨kv, hkv, rfl⟩ := List.mem_map.mp hp
      exact hv2 kv hkv
  have hinj : Function.Injective
      (fun kv : String × String => (kv.1.data, kv.2.data)) := by
    intro a b hab
    obtain ⟨ha1, ha2⟩ := Prod.mk.injEq _ _ _ _ ▸ hab
    exact Prod.ext (string_data_inj ha1) (string_data_inj ha2)
  exact List.map_injective_iff.mpr hinj hld

lemma charListLe_total : ∀ a b : List Char,
    charListLe a b = true ∨ charListLe b a = true := by
  intro a
  induction a with
  | nil => intro b; exact Or.inl rfl
  | cons x as ih =>
    intro b
    cases b with
    | nil => exact Or.inr rfl
    | cons y bs =>
      by_cases hxy : x = y
      · subst hxy
        rcases ih bs with h | h
        · left; unfold charListLe; rw [if_pos rfl]; exact h
        · right; unfold charListLe; rw [if_pos rfl]; exact h
      · rcases lt_trichotomy x y with hlt | heq | hgt
        · left; unfold charListLe; rw [if_neg hxy]; exact decide_eq_true hlt
        · exact absurd heq hxy
        · right; unfold charListLe; rw [if_neg (fun h => hxy h.symm)]
          exact decide_eq_true hgt

lemma charListLe_trans : ∀ a b c : List Char,
    charListLe a b = true → charListLe b c = true → charListLe a c = true := by
  intro a
  induction a with
  | nil => intro b c _ _; rfl
  | cons x as ih =>
    intro b c h1 h2
    cases b with
    | nil => simp [charListLe] at h1
    | cons y bs =>
      cases c with
      | nil => simp [charListLe] at h2
      | cons z cs =>
        unfold charListLe at h1 h2 ⊢
        by_cases hxy : x = y
        · rw [if_pos hxy] at h1
          by_cases hyz : y = z
          · rw [if_pos hyz] at h2
            rw [if_pos (hxy.trans hyz)]
            exact ih bs cs h1 h2
          · rw [if_neg hyz] at h2
            have hxz : x < z := hxy ▸ of_decide_eq_true h2
            rw [if_neg (ne_of_lt hxz)]
            exact decide_eq_true hxz
        · rw [if_neg hxy] at h1
          have hxy2 : x < y := of_decide_eq_true h1
          by_cases hyz : y = z
          · have hxz : x < z := hyz ▸ hxy2
            rw [if_neg (ne_of_lt hxz)]
            exact decide_eq_true hxz
          · rw [if_neg hyz] at h2
            have hxz : x < z := lt_trans hxy2 (of_decide_eq_true h2)
            rw [if_neg (ne_of_lt hxz)]
            exact decide_eq_true hxz

lemma charListLe_antisymm : ∀ a b : List Char,
    charListLe a b = true → charListLe b a = true → a = b := by
  intro a
  induction a with
  | nil =>
    intro b h1 h2
    cases b with
    | nil => rfl
    | cons y bs => simp [charListLe] at h2
  | cons x as ih =>
    intro b h1 h2
    cases b with
    | nil => simp [charListLe] at h1
    | cons y bs =>
      unfold charListLe at h1 h2
      by_cases hxy : x = y
      · rw [if_pos hxy] at h1
        rw [if_pos hxy.symm] at h2
        rw [hxy, ih bs h1 h2]
      · rw [if_neg hxy] at h1
        rw [if_neg (fun h => hxy h.symm)] at h2
        exact absurd (of_decide_eq_true h1) (lt_asymm (of_decide_eq_true h2))

lemma strLe_total (a b : String) : strLe a b = true ∨ strLe b a = true :=
  charListLe_total a.data b.data

lemma strLe_trans {a b c : String} (h1 : strLe a b = true)
    (h2 : strLe b c = true) : strLe a c = true :=
  charListLe_trans a.data b.data c.data h1 h2

lemma strLe_antisymm {a b : String} (h1 : strLe a b = true)
    (h2 : strLe b a = true) : a = b :=
  string_data_inj (charListLe_antisymm a.data b.data h1 h2)

lemma strLt_imp_strLe {a b : String} (h : strLt a b = true) : strLe a b = true := by
  unfold strLt at h
  simp only [Bool.and_eq_true] at h
  exact h.1

lemma strLt_ne {a b : String} (h : strLt a b = true) : a ≠ b := by
  unfold strLt at h
  simp only [Bool.and_eq_true, Bool.not_eq_true'] at h
  exact fun he => by
    rw [he] at h
    simp at h

/-- A canonical (key-sorted) association-list representation of a Go
`map[string]string`: strictly ascending keys. Two label maps are equal
exactly when their canonical representations are. -/
abbrev KeySorted (l : Labels) : Prop :=
  l.Pairwise (fun p q => strLt p.1 q.1 = true)

lemma insertKey_perm (k : String) : ∀ xs, (insertKey k xs).Perm (k :: xs) := by
  intro xs
  induction xs with
  | nil => exact List.Perm.refl _
  | cons x xs ih =>
    unfold insertKey
    split
    · exact List.Perm.refl _
    · exact (ih.cons x).trans (List.Perm.swap k x xs)

lemma sortKeysList_perm : ∀ ks, (sortKeysList ks).Perm ks := by
  intro ks
  induction ks with
  | nil => exact List.Perm.refl _
  | cons k ks ih =>
    exact (insertKey_perm k (sortKeysList ks)).trans (ih.cons k)

lemma mem_insertKey (k : String) (xs : List String) (y : String)
    (hy : y ∈ insertKey k xs) : y = k ∨ y ∈ xs := by
  have := (insertKey_perm k xs).mem_iff.mp hy
  exact List.mem_cons.mp this

lemma insertKey_sorted (k : String) :
    ∀ xs, xs.Pairwise (fun a b => strLe a b = true) →
      (insertKey k xs).Pairwise (fun a b => strLe a b = true) := by
  intro xs
  induction xs with
  | nil => intro _; simp [insertKey]
  | cons x xs ih =>
    intro h
    have hp := List.pairwise_cons.mp h
    unfold insertKey
    split
    · rename_i hle
      refine List.pairwise_cons.mpr ⟨?_, h⟩
      intro y hy
      rcases List.mem_cons.mp hy with rfl | hy2
      · exact hle
      · exact strLe_trans hle (hp.1 y hy2)
    · rename_i hnle
      have hxk : strLe x k = true :=
        (strLe_total k x).resolve_left (fun hc => hnle hc)
      refine List.pairwise_cons.mpr ⟨?_, ih hp.2⟩
      intro y hy
      rcases mem_insertKey k xs y hy with rfl | hy2
      · exact hxk
      · exact hp.1 y hy2

lemma sortKeysList_sorted : ∀ ks,
    (sortKeysList ks).Pairwise (fun a b => strLe a b = true) := by
  intro ks
  induction ks with
  | nil => exact List.Pairwise.nil
  | cons k ks ih => exact insertKey_sorted k (sortKeysList ks) ih

lemma sorted_perm_unique : ∀ (l1 l2 : List String), l1.Perm l2 →
    l1.Pairwise (fun a b => strLe a b = true) →
    l2.Pairwise (fun a b => strLe a b = true) → l1 = l2 := by
  intro l1
  induction l1 with
  | nil =>
    intro l2 hp _ _
    exact (hp.symm.eq_nil).symm
  | cons a t1 ih =>
    intro l2 hp h1 h2
    cases l2 with
    | nil =>
      have := hp.length_eq
      simp at this
    | cons b t2 =>
      have hab : a = b := by
        have hb1 : b ∈ a :: t1 := hp.mem_iff.mpr (List.mem_cons_self b t2)
        have ha2 : a ∈ b :: t2 := hp.mem_iff.mp (List.mem_cons_self a t1)
        rcases List.mem_cons.mp hb1 with hh | hh
        · exact hh.symm
        rcases List.mem_cons.mp ha2 with hh2 | hh2
        · exact hh2
        exact strLe_antisymm ((List.pairwise_cons.mp h1).1 b hh)
          ((List.pairwise_cons.mp h2).1 a hh2)
      subst hab
      rw [ih t2 hp.cons_inv (List.pairwise_cons.mp h1).2
        (List.pairwise_cons.mp h2).2]

lemma sortKeysList_sorted_id : ∀ ks : List String,
    ks.Pairwise (fun a b => strLe a b = true) → sortKeysList ks = ks := by
  intro ks hks
  exact sorted_perm_unique (sortKeysList ks) ks (sortKeysList_perm ks)
    (sortKeysList_sorted ks) hks

lemma sortKeys_of_keySorted (l : Labels) (h : KeySorted l) :
    sortKeys l = l.map Prod.fst := by
  unfold sortKeys
  apply sortKeysList_sorted_id
  rw [List.pairwise_map]
  exact h.imp (fun hab => strLt_imp_strLe hab)

lemma lookupD_cons_self (k v : String) (l : Labels) :
    lookupD ((k, v) :: l) k = v := by
  simp [lookupD, List.lookup]

lemma lookupD_cons_ne (k v k2 : String) (l : Labels) (h : k2 ≠ k) :
    lookupD ((k, v) :: l) k2 = lookupD l k2 := by
  have hb : (k2 == k) = false := beq_eq_false_iff_ne.mpr h
  simp [lookupD, List.lookup, hb]

lemma serializeKeyList_skip : ∀ (ks : List String) (k v : String) (l : Labels),
    (∀ k2 ∈ ks, k2 ≠ k) →
    serializeKeyList ks ((k, v) :: l) = serializeKeyList ks l := by
  intro ks
  induction ks with
  | nil => intro k v l _; rfl
  | cons k2 ks ih =>
    intro k v l hne
    show k2 ++ "=" ++ lookupD ((k, v) :: l) k2 ++ ","
        ++ serializeKeyList ks ((k, v) :: l)
      = k2 ++ "=" ++ lookupD l k2 ++ "," ++ serializeKeyList ks l
    rw [lookupD_cons_ne k v k2 l (hne k2 (List.mem_cons_self _ _)),
      ih k v l (fun k3 h3 => hne k3 (List.mem_cons_of_mem _ h3))]

lemma serializeKeyList_eq : ∀ l : Labels, KeySorted l →
    serializeKeyList (l.map Prod.fst) l = serializePairs l := by
  intro l
  induction l with
  | nil => intro _; rfl
  | cons p rest ih =>
    intro h
    obtain ⟨k, v⟩ := p
    have hp := List.pairwise_cons.mp h
    show k ++ "=" ++ lookupD ((k, v) :: rest) k ++ ","
        ++ serializeKeyList (rest.map Prod.fst) ((k, v) :: rest)
      = k ++ "=" ++ v ++ "," ++ serializePairs rest
    rw [lookupD_cons_self, serializeKeyList_skip (rest.map Prod.fst) k v rest
      (fun k2 hk2 => by
        obtain ⟨q, hq, rfl⟩ := List.mem_map.mp hk2
        exact (strLt_ne (hp.1 q hq)).symm), ih hp.2]

lemma hashInput_keySorted (l : Labels) (h : KeySorted l) :
    hashInput l = serializePairs l := by
  unfold hashInput
  rw [sortKeys_of_keySorted l h]
  exact serializeKeyList_eq l h

lemma isKeyStartChar_not_special (c : Char) (h : isKeyStartChar c = true) :
    c ≠ '=' ∧ c ≠ ',' := by
  constructor <;> intro he <;> rw [he] at h <;> exact absurd h (by decide)

lemma isKeyChar_not_special (c : Char) (h : isKeyChar c = true) :
    c ≠ '=' ∧ c ≠ ',' := by
  constructor <;> intro he <;> rw [he] at h <;> exact absurd h (by decide)

lemma validKey_no_eq (k : String) (h : validLabelKey k = true) :
    '=' ∉ k.data := by
  unfold validLabelKey at h
  cases hd : k.data with
  | nil => rw [hd] at h; cases h
  | cons c rest =>
    rw [hd] at h
    have h2 : isKeyStartChar c = true ∧ rest.all isKeyChar = true := by
      simp only [Bool.and_eq_true] at h
      exact ⟨h.1.2, h.2⟩
    intro hmem
    rcases List.mem_cons.mp hmem with heq | hmem2
    · exact (isKeyStartChar_not_special c h2.1).1 heq.symm
    · exact (isKeyChar_not_special '='
        (List.all_eq_true.mp h2.2 '=' hmem2)).1 rfl

lemma lookup_perm : ∀ {l1 l2 : Labels}, l1.Perm l2 →
    (l1.map Prod.fst).Nodup → ∀ k, l1.lookup k = l2.lookup k := by
  intro l1 l2 hp
  induction hp with
  | nil => intro _ k; rfl
  | cons p hp ih =>
    intro hnd k
    obtain ⟨k1, v1⟩ := p
    by_cases hk : (k == k1) = true
    · simp [List.lookup, hk]
    · rw [Bool.not_eq_true] at hk
      simp only [List.lookup, hk]
      exact ih (by
        rw [List.map_cons, List.nodup_cons] at hnd
        exact hnd.2) k
  | swap x y t =>
    intro hnd k
    obtain ⟨kx, vx⟩ := x
    obtain ⟨ky, vy⟩ := y
    have hxy : ky ≠ kx := by
      rw [List.map_cons, List.map_cons, List.nodup_cons] at hnd
      exact fun he => hnd.1 (he ▸ List.mem_cons_self kx _)
    by_cases h1 : (k == ky) = true
    · have hk2 : (k == kx) = false := by
        have hky : k = ky := by simpa using h1
        exact beq_eq_false_iff_ne.mpr (fun he => hxy (hky ▸ he))
      simp [List.lookup, h1, hk2]
    · rw [Bool.not_eq_true] at h1
      by_cases h2 : (k == kx) = true
      · simp [List.lookup, h1, h2]
      · rw [Bool.not_eq_true] at h2
        simp [List.lookup, h1, h2]
  | trans hp1 hp2 ih1 ih2 =>
    intro hnd k
    rw [ih1 hnd k, ih2 (((hp1.map Prod.fst).nodup_iff).mp hnd) k]

lemma serializeKeyList_congr (l l2 : Labels)
    (hlk : ∀ k, lookupD l2 k = lookupD l k) :
    ∀ ks, serializeKeyList ks l2 = serializeKeyList ks l := by
  intro ks
  induction ks with
  | nil => rfl
  | cons k ks ih =>
    show k ++ "=" ++ lookupD l2 k ++ "," ++ serializeKeyList ks l2
      = k ++ "=" ++ lookupD l k ++ "," ++ serializeKeyList ks l
    rw [hlk k, ih]

lemma hashInput_perm (l l2 : Labels) (hp : l2.Perm l)
    (hnd : (l.map Prod.fst).Nodup) : hashInput l2 = hashInput l := by
  unfold hashInput
  have hkeys : sortKeys l2 = sortKeys l := by
    unfold sortKeys
    refine sorted_perm_unique _ _ ?_ (sortKeysList_sorted _) (sortKeysList_sorted _)
    exact (sortKeysList_perm _).trans
      ((hp.map Prod.fst).trans (sortKeysList_perm _).symm)
  rw [hkeys]
  have hnd2 : (l2.map Prod.fst).Nodup := ((hp.map Prod.fst).nodup_iff).mpr hnd
  exact serializeKeyList_congr l l2
    (fun k => by unfold lookupD; rw [lookup_perm hp hnd2 k]) (sortKeys l)

/-- C3 (corrected): on canonical label maps whose keys are valid label keys
and whose *values contain no comma*, and for any injective hash `H` of the
serialized string (the no-hash-collision assumption), fingerprints agree
exactly when the label sets are equal; and for any map-iteration order (any
permutation of the pairs) the fingerprint is unchanged. The comma-freeness
proviso is forced by the counterexample: values may legally contain `,` and
`=`, and then two distinct label sets can serialize identically, defeating
any hash. -/
theorem c3_fingerprint_inj (H : String → String) (hH : Function.Injective H)
    (l1 l2 : Labels) (hs1 : KeySorted l1) (hs2 : KeySorted l2)
    (hk1 : ∀ p ∈ l1, validLabelKey p.1 = true)
    (hk2 : ∀ p ∈ l2, validLabelKey p.1 = true)
    (hv1 : ∀ p ∈ l1, ',' ∉ p.2.data)
    (hv2 : ∀ p ∈ l2, ',' ∉ p.2.data) :
    (fingerprintWith H l1 = fingerprintWith H l2 ↔ l1 = l2) ∧
    (∀ l0 : Labels, l0.Perm l1 → fingerprintWith H l0 = fingerprintWith H l1) := by
  constructor
  · constructor
    · intro hfp
      have hhash : hashInput l1 = hashInput l2 := hH hfp
      rw [hashInput_keySorted l1 hs1, hashInput_keySorted l2 hs2] at hhash
      exact serializePairs_inj l1 l2
        (fun p hp => validKey_no_eq p.1 (hk1 p hp))
        (fun p hp => validKey_no_eq p.1 (hk2 p hp)) hv1 hv2 hhash
    · intro h
      rw [h]
  · intro l0 hp
    unfold fingerprintWith
    have hnd : (l1.map Prod.fst).Nodup := by
      have hpw : (l1.map Prod.fst).Pairwise (fun a b => a ≠ b) := by
        rw [List.pairwise_map]
        exact hs1.imp (fun hab => strLt_ne hab)
      exact hpw
    rw [hashInput_perm l1 l0 hp hnd]

/-- Witness for `c3_fingerprint_inj`: the identity hash is injective, and for
the concrete canonical valid maps `{a: "b"}` and `{a: "c"}` fingerprints
differ exactly as the maps do, while the reversed iteration order of
`{a: "b", c: "d"}` hashes identically. -/
theorem c3_fingerprint_inj_witness :
    KeySorted [("a", "b"), ("c", "d")] ∧
    (fingerprintWith (fun s => s) [("c", "d"), ("a", "b")]
      = fingerprintWith (fun s => s) [("a", "b"), ("c", "d")]) := by
  refine ⟨by decide, ?_⟩
  exact (c3_fingerprint_inj (fun s => s) (fun _ _ h => h)
    [("a", "b"), ("c", "d")] [("a", "b"), ("c", "d")] (by decide) (by decide)
    (by decide) (by decide) (by decide) (by decide)).2
    [("c", "d"), ("a", "b")] (by decide)

end InsightStream
